import Mathlib

/-!
A shallow embedding of `src/sync.py` (Canvas → Todoist reconciliation) and
proofs about its reconciliation core.

Modelling conventions, stated once:

* Timestamps are `Int` seconds since an arbitrary epoch.  Python's
  `datetime.isoformat` is an injective textual encoding of an aware
  datetime and `datetime.fromisoformat` its partial inverse (raising
  `ValueError` on garbage); they are modelled by `isoformat` /
  `fromisoformat` below: an executable injective decimal encoding with a
  verified round trip.  No claim inspects the concrete shape of the
  string, only equality and parseability.
* `hashlib.md5` is an external digest; the program uses it purely for
  change detection and its documentation declares collisions out of
  scope, so it is modelled as an injective function (the identity) on the
  hashed content string.
* Remote Todoist calls are driven by oracles describing, per event (and
  per disappeared ledger entry), what each remote call would return or
  whether it would raise.  `task_exists` and `complete_task` catch all
  exceptions internally and return a `Bool` (sync.py lines 339-355), so
  their behaviours are plain booleans; `create_task` either returns a
  task id or raises; `update_task` either succeeds or raises.
* The run records a trace of remote task calls (`Call`), each tagged with
  the uid of the event / ledger entry being processed when it was issued.
  Project and label resolution are not recorded: no claim observes them,
  `get_or_create_label` recovers internally from creation failure
  (sync.py lines 282-289), and project/label listing is outside the
  claims' scope.
* Python `dict` state is an association list with dict semantics:
  `List.lookup`, key-replacing assignment (`setKey`) and key deletion.
-/

namespace CanvasSync

/-! ### Timestamp encoding: model of `datetime.isoformat` / `fromisoformat` -/

/-- One decimal digit rendered as a character, `0 ↦ '0'`, …, `9 ↦ '9'`. -/
def digitChar (d : Nat) : Char := Char.ofNat (48 + d)

/-- Decode a decimal digit character; `none` on anything else. -/
def charDigit (c : Char) : Option Nat :=
  if 48 ≤ c.toNat ∧ c.toNat ≤ 57 then some (c.toNat - 48) else none

/-- Little-endian digit list of `n`, fuel-based so the kernel can reduce it. -/
def natDigitsAux : Nat → Nat → List Nat
  | 0, _ => []
  | _ + 1, 0 => []
  | fuel + 1, n + 1 => ((n + 1) % 10) :: natDigitsAux fuel ((n + 1) / 10)

/-- Little-endian decimal digits of a natural number (empty for `0`). -/
def natDigits (n : Nat) : List Nat := natDigitsAux n n

/-- Value of a little-endian digit list. -/
def ofDigits : List Nat → Nat
  | [] => 0
  | d :: ds => d + 10 * ofDigits ds

/-- Characters of the encoding of a natural number (`"0"` for zero). -/
def natChars (n : Nat) : List Char :=
  if n = 0 then ['0'] else (natDigits n).map digitChar

/-- Model of `datetime.isoformat`: an injective textual encoding of a
timestamp (negative timestamps are prefixed with `'-'`). -/
def isoformat : Int → String
  | Int.ofNat n => ⟨natChars n⟩
  | Int.negSucc n => ⟨'-' :: natChars (n + 1)⟩

/-- Decode a nonempty little-endian digit-character list. -/
def decodeDigits : List Char → Option Nat
  | [] => none
  | [c] => charDigit c
  | c :: d :: rest =>
    match charDigit c, decodeDigits (d :: rest) with
    | some v, some n => some (v + 10 * n)
    | _, _ => none

/-- Model of `datetime.fromisoformat`: partial inverse of `isoformat`,
`none` models the `ValueError` raised on an unparseable string. -/
def fromisoformat (s : String) : Option Int :=
  match s.data with
  | [] => none
  | c :: rest =>
    if c = '-' then (decodeDigits rest).map fun n => -(n : Int)
    else (decodeDigits (c :: rest)).map fun n => (n : Int)

/-! ### Fingerprinting: `compute_event_hash` (sync.py lines 141-144) -/

/-- Model of `hashlib.md5(..).hexdigest()`: an injective digest of the
content string (collisions are out of scope per the specification, so the
digest is modelled as the identity on the hashed content). -/
def md5 (s : String) : String := s

/-- Whole-number days between two timestamps, Python `timedelta.days`
semantics (floor division of the signed difference by 86400 seconds). -/
def daysBetween (due now : Int) : Int := Int.fdiv (due - now) 86400

/-- The table `PRIORITY_THRESHOLDS` (sync.py lines 44-48), already in the ascending
key order that `sorted(PRIORITY_THRESHOLDS.items())` produces at the use
site. -/
def PRIORITY_THRESHOLDS : List (Int × Nat) := [(1, 4), (3, 3), (7, 2)]

/-- The constant `DEFAULT_PRIORITY` (sync.py line 49). -/
def DEFAULT_PRIORITY : Nat := 1

/-- The threshold scan inside `calculate_priority`: first `(threshold,
priority)` pair with `days ≤ threshold` wins, else the default. -/
def priorityScan (days : Int) : List (Int × Nat) → Nat
  | [] => DEFAULT_PRIORITY
  | (threshold, priority) :: rest =>
    if days ≤ threshold then priority else priorityScan days rest

/-- Model of `calculate_priority` (sync.py lines 147-161): priority from whole days
until due, thresholds tested in ascending order with `<=`. -/
def calculate_priority (due now : Int) : Nat :=
  priorityScan (daysBetween due now) PRIORITY_THRESHOLDS

/-! ### Course classification: `parse_course_name` (sync.py lines 112-131) -/

/-- Python `\s` / `str.strip` whitespace, restricted to its ASCII part. -/
def pySpace (c : Char) : Bool :=
  c = ' ' || c = '\t' || c = '\n' || c = '\x0d' || c = '\x0b' || c = '\x0c'

/-- ASCII uppercase letter, the `[A-Z]` character class. -/
def isUpperAZ (c : Char) : Bool := 'A' ≤ c && c ≤ 'Z'

/-- ASCII digit, the `\d` character class restricted to ASCII. -/
def isDigit09 (c : Char) : Bool := '0' ≤ c && c ≤ '9'

/-- Python `str.strip()` on a character list. -/
def pyStrip (cs : List Char) : List Char :=
  ((cs.dropWhile pySpace).reverse.dropWhile pySpace).reverse

/-- Characters before the first `']'`, or `none` when there is no `']'`;
the greedy `[^\]]+` body of the bracket regex. -/
def takeToRBracket : List Char → Option (List Char)
  | [] => none
  | ']' :: _ => some []
  | c :: rest => (takeToRBracket rest).map (c :: ·)

/-- Leftmost match of `re.search(r'\[([^\]]+)\]', s)`: the group between
the first `'['` that is followed, at distance at least one, by a `']'`. -/
def bracketGroup : List Char → Option (List Char)
  | [] => none
  | '[' :: rest =>
    match takeToRBracket rest with
    | some grp => if grp.isEmpty then bracketGroup rest else some grp
    | none => bracketGroup rest
  | _ :: rest => bracketGroup rest

/-- Match of `([A-Z]{2,4}\s*\d{3}[A-Z]?)` anchored at the head of the
list: a maximal run of 2-4 uppercase letters (a longer run cannot match,
since backtracking always leaves a letter in front of `\d`), greedy
whitespace, exactly three digits, one optional trailing uppercase. -/
def courseMatchAt (cs : List Char) : Option (List Char) :=
  let letters := cs.takeWhile isUpperAZ
  if 2 ≤ letters.length ∧ letters.length ≤ 4 then
    let afterLetters := cs.drop letters.length
    let ws := afterLetters.takeWhile pySpace
    match afterLetters.drop ws.length with
    | d₁ :: d₂ :: d₃ :: rest =>
      if isDigit09 d₁ && isDigit09 d₂ && isDigit09 d₃ then
        match rest with
        | c :: _ =>
          if isUpperAZ c then some (letters ++ ws ++ [d₁, d₂, d₃, c])
          else some (letters ++ ws ++ [d₁, d₂, d₃])
        | [] => some (letters ++ ws ++ [d₁, d₂, d₃])
      else none
    | _ => none
  else none

/-- Leftmost match of `re.search(r'([A-Z]{2,4}\s*\d{3}[A-Z]?)', ·)`. -/
def courseSearch : List Char → Option (List Char)
  | [] => none
  | c :: rest =>
    match courseMatchAt (c :: rest) with
    | some m => some m
    | none => courseSearch rest

/-- Whether `pat` is a prefix of `cs` (by character equality). -/
def headMatches : List Char → List Char → Bool
  | _, [] => true
  | [], _ :: _ => false
  | c :: cs, p :: ps => c = p && headMatches cs ps

/-- Model of `summary.split(sep)[0]` guarded by `sep in summary`: the characters
before the first occurrence of `pat`, or `none` when `pat` does not
occur. -/
def beforeFirst (pat : List Char) : List Char → Option (List Char)
  | [] => if headMatches [] pat then some [] else none
  | c :: rest =>
    if headMatches (c :: rest) pat then some []
    else (beforeFirst pat rest).map (c :: ·)

/-- The third separator literal of sync.py line 127.  In the source it is
the UTF-8 bytes of an en dash mis-decoded as `' â€“ '` (space, U+00E2,
U+20AC, U+201C, space) — not an actual em/en dash. -/
def mojibakeSep : List Char := [' ', 'â', '€', '“', ' ']

/-- Model of `parse_course_name` (sync.py lines 112-131), translated clause by
clause: bracketed suffix in the summary, else the department-code pattern
searched in `summary + " " + description`, else the prefix before the
first separator present among `':'`, `' - '`, `' â€“ '` tried in that
order, else `"General"`. -/
def parse_course_name (summary : String) (description : String := "") : String :=
  match bracketGroup summary.data with
  | some grp => ⟨pyStrip grp⟩
  | none =>
    match courseSearch (summary.data ++ ' ' :: description.data) with
    | some m => ⟨pyStrip m⟩
    | none =>
      match beforeFirst [':'] summary.data with
      | some pre => ⟨pyStrip pre⟩
      | none =>
        match beforeFirst [' ', '-', ' '] summary.data with
        | some pre => ⟨pyStrip pre⟩
        | none =>
          match beforeFirst mojibakeSep summary.data with
          | some pre => ⟨pyStrip pre⟩
          | none => "General"

/-- One matcher strategy of the course-resolution cascade, as an
`Option`-valued rule over (summary, description). -/
def bracketRule (summary : String) (_ : String) : Option String :=
  (bracketGroup summary.data).map fun grp => ⟨pyStrip grp⟩

/-- The department-code rule: the pattern is searched in the
concatenation `summary + " " + description`, so it may match across the
boundary between the two fields. -/
def deptCodeRule (summary description : String) : Option String :=
  (courseSearch (summary.data ++ ' ' :: description.data)).map fun m => ⟨pyStrip m⟩

/-- The separator rule: the separators `':'`, `' - '`, `' â€“ '` are
tried in that fixed order and the first one present in the summary wins;
the result is the summary text before that separator's first
occurrence. -/
def separatorRule (summary : String) (_ : String) : Option String :=
  match beforeFirst [':'] summary.data with
  | some pre => some ⟨pyStrip pre⟩
  | none =>
    match beforeFirst [' ', '-', ' '] summary.data with
    | some pre => some ⟨pyStrip pre⟩
    | none => (beforeFirst mojibakeSep summary.data).map fun pre => ⟨pyStrip pre⟩

/-- The ordered matcher cascade of `parse_course_name`. -/
def courseRules : List (String → String → Option String) :=
  [bracketRule, deptCodeRule, separatorRule]

/-- First rule of an ordered strategy list that produces a value. -/
def firstRule (summary description : String) :
    List (String → String → Option String) → Option String
  | [] => none
  | rule :: rest =>
    match rule summary description with
    | some r => some r
    | none => firstRule summary description rest

/-- Course resolution as the specification's first-match-wins reading:
bracketed suffix; else the department-code pattern searched in the
summary or in the description separately; else the summary text before
the earliest occurrence of any of `':'`, `' - '`, `' – '` (en dash),
`' — '` (em dash); else `"General"`.  Modelled from the claim's words,
for comparison with `parse_course_name`. -/
def parse_course_name_spec (summary : String) (description : String := "") : String :=
  match bracketGroup summary.data with
  | some grp => ⟨pyStrip grp⟩
  | none =>
    match courseSearch summary.data with
    | some m => ⟨pyStrip m⟩
    | none =>
      match courseSearch description.data with
      | some m => ⟨pyStrip m⟩
      | none =>
        let cut := fun (pat : List Char) (best : Option Nat) =>
          match beforeFirst pat summary.data with
          | some pre =>
            match best with
            | some b => some (min b pre.length)
            | none => some pre.length
          | none => best
        match cut [':'] (cut [' ', '-', ' '] (cut [' ', '–', ' ']
            (cut [' ', '—', ' '] none))) with
        | some n => ⟨pyStrip (summary.data.take n)⟩
        | none => "General"

/-! ### Data model: events, ledger entries, the ledger (sync.py 52-96, 199-208) -/

/-- One parsed event, the fields of the dict built by `parse_ics_events`
(sync.py lines 199-208) that the reconciler's ledger and trace observe.
The derived `title`, `course` and `priority` fields only flow into task
payloads, which no claim inspects; they are recomputed from these fields
by the pure functions above. -/
structure Event where
  uid : String
  summary : String
  description : String
  due_datetime : Int
  due_date : String
  deriving Repr, DecidableEq

/-- Model of `compute_event_hash` (sync.py lines 141-144). -/
def compute_event_hash (event : Event) : String :=
  md5 (event.summary ++ "|" ++ event.due_date ++ "|" ++ event.description)

/-- Event construction as `parse_ics_events` performs it: the stored
`due_date` string is the `isoformat` of the due timestamp. -/
def mkEvent (uid summary description : String) (due : Int) : Event :=
  { uid := uid, summary := summary, description := description,
    due_datetime := due, due_date := isoformat due }

/-- One value of the `synced_events` dict (sync.py lines 82-87). -/
structure Entry where
  todoist_task_id : String
  event_hash : String
  synced_at : String
  due_date : Option String
  deriving Repr, DecidableEq

/-- The persisted state: `{"synced_events": {...}, "last_sync": ...}`,
with the dict as an association list in insertion order. -/
structure Ledger where
  synced_events : List (String × Entry)
  last_sync : Option String
  deriving Repr, DecidableEq

/-- The empty state `{"synced_events": {}, "last_sync": None}` that
`SyncState._load` falls back to (sync.py line 67). -/
def emptyLedger : Ledger := { synced_events := [], last_sync := none }

/-- Python dict assignment `d[k] = v`: replace in place if the key is
present, else append. -/
def setKey : List (String × Entry) → String → Entry → List (String × Entry)
  | [], k, v => [(k, v)]
  | (k', v') :: rest, k, v =>
    if k' = k then (k, v) :: rest else (k', v') :: setKey rest k v

/-- Model of `SyncState._load` (sync.py lines 59-67).  The argument models the
state file: `none` for a missing file, `some (.error ())` for a file
whose `json.load` raises, `some (.ok l)` for a successfully parsed file
(a parsed JSON object has unique keys). -/
def SyncState.load : Option (Except Unit Ledger) → Ledger
  | some (Except.ok l) => l
  | some (Except.error _) => emptyLedger
  | none => emptyLedger

/-- Model of `SyncState.mark_synced` (sync.py lines 80-87); `synced_at` is the
current timestamp. -/
def mark_synced (l : Ledger) (event_uid todoist_task_id event_hash : String)
    (due_date : String) (now : Int) : Ledger :=
  let entry : Entry :=
    { todoist_task_id := todoist_task_id, event_hash := event_hash,
      synced_at := isoformat now, due_date := some due_date }
  { l with synced_events := setKey l.synced_events event_uid entry }

/-- Model of `SyncState.mark_completed` (sync.py lines 89-92): delete the entry. -/
def mark_completed (l : Ledger) (event_uid : String) : Ledger :=
  { l with synced_events := l.synced_events.filter fun kv => kv.1 ≠ event_uid }

/-- Model of `SyncState.save` (sync.py lines 69-74): stamp `last_sync` with the
current timestamp and write the file (persistence itself is outside the
model; the returned value is what gets written). -/
def SyncState.save (l : Ledger) (now : Int) : Ledger :=
  { l with last_sync := some (isoformat now) }

/-! ### Remote behaviour oracles and the call trace -/

/-- What the Todoist store would answer during the processing of one
event: `exists` is the boolean `task_exists` returns (it catches its own
exceptions, sync.py lines 339-345); `update` is whether `update_task`
succeeds (`false` = raises); `create` is `some taskId` when `create_task`
succeeds and `none` when it raises. -/
structure EventBehavior where
  existsResult : Bool
  updateOk : Bool
  createResult : Option String
  deriving Repr, DecidableEq

/-- What the store would answer while handling one disappeared ledger
entry: the booleans returned by `task_exists` and `complete_task` (both
catch their own exceptions, sync.py lines 339-355). -/
structure DisBehavior where
  existsResult : Bool
  completeOk : Bool
  deriving Repr, DecidableEq

/-- One remote task operation issued during the run, tagged with the uid
of the event or ledger entry being processed when it was issued. -/
inductive Call where
  | createTask (uid : String)
  | updateTask (uid taskId : String)
  | taskExists (uid taskId : String)
  | completeTask (uid taskId : String)
  | addReminder (uid : String)
  deriving Repr, DecidableEq

/-- The uid an issued call was tagged with. -/
def Call.uidOf : Call → String
  | createTask uid => uid
  | updateTask uid _ => uid
  | taskExists uid _ => uid
  | completeTask uid _ => uid
  | addReminder uid => uid

/-- Number of `createTask` calls in a trace. -/
def countCreate (tr : List Call) : Nat :=
  tr.countP fun c => match c with | Call.createTask _ => true | _ => false

/-- Number of `updateTask` calls in a trace. -/
def countUpdate (tr : List Call) : Nat :=
  tr.countP fun c => match c with | Call.updateTask _ _ => true | _ => false

/-- The run counters (sync.py line 429). -/
structure Stats where
  created : Nat
  updated : Nat
  skipped : Nat
  completed : Nat
  deriving Repr, DecidableEq

/-- All-zero counters. -/
def Stats.zero : Stats := ⟨0, 0, 0, 0⟩

/-- The configuration constant `REMINDER_DAYS_BEFORE` (sync.py line 26), at its default value. -/
def REMINDER_DAYS_BEFORE : Int := 1

/-! ### The reconciler (sync.py `sync_canvas_to_todoist`, lines 393-519) -/

/-- Accumulated run state: in-memory ledger, counters, call trace. -/
abbrev RunAcc := Ledger × Stats × List Call

/-- One iteration of the disappearance pass (sync.py lines 435-450) for
one previously synced uid.  Faithful to the source: nothing at all
happens unless the entry's stored `due_date` is truthy, parses, and is
strictly in the future; in that case `task_exists` is consulted,
`complete_task` is attempted only when it answered true, and
`mark_completed` removes the entry in either case. -/
def disStep (dOracle : String → DisBehavior) (now : Int)
    (currentUids : List String) (acc : RunAcc) (uid : String) : RunAcc :=
  let (st, stats, tr) := acc
  if uid ∈ currentUids then acc
  else
    match List.lookup uid st.synced_events with
    | none => acc
    | some info =>
      match info.due_date with
      | none => acc
      | some s =>
        if s = "" then acc
        else
          match fromisoformat s with
          | none => acc
          | some due =>
            if now < due then
              let beh := dOracle uid
              let tr₁ := tr ++ [Call.taskExists uid info.todoist_task_id]
              if beh.existsResult then
                let tr₂ := tr₁ ++ [Call.completeTask uid info.todoist_task_id]
                let stats' := if beh.completeOk then
                  { stats with completed := stats.completed + 1 } else stats
                (mark_completed st uid, stats', tr₂)
              else
                (mark_completed st uid, stats, tr₁)
            else acc

/-- The disappearance pass: iterate `disStep` over the snapshot
`list(state.get_all_synced_uids())` taken before the pass mutates the
state (the Python snapshot is a set; iteration order is unspecified
there, and every iteration only touches its own uid's entry, so ledger
insertion order is used here). -/
def disappearancePass (dOracle : String → DisBehavior) (now : Int)
    (currentUids : List String) (st : Ledger) : RunAcc :=
  (st.synced_events.map Prod.fst).foldl
    (disStep dOracle now currentUids) (st, Stats.zero, [])

/-- The create branch shared by the no-entry and stale-entry cases
(sync.py lines 481-507).  `get_or_create_label` is resolved before the
`try` block but recovers internally from creation failure and is not
traced; the `try` covers `create_task`, the best-effort reminder and
`mark_synced`, so a `create_task` failure is caught and leaves both the
ledger and the counters untouched. -/
def createBranch (beh : EventBehavior) (now : Int) (event : Event)
    (st : Ledger) (stats : Stats) (tr : List Call) : RunAcc :=
  let tr₁ := tr ++ [Call.createTask event.uid]
  match beh.createResult with
  | some task_id =>
    let tr₂ :=
      if 0 < REMINDER_DAYS_BEFORE ∧
          now < event.due_datetime - 86400 * REMINDER_DAYS_BEFORE then
        tr₁ ++ [Call.addReminder event.uid]
      else tr₁
    (mark_synced st event.uid task_id (compute_event_hash event)
      event.due_date now,
     { stats with created := stats.created + 1 }, tr₂)
  | none => (st, stats, tr₁)

/-- The per-event pass body (sync.py lines 452-507).  A `skip` issues no
remote call and leaves the ledger untouched; an update whose remote call
raises is **not** caught by any handler in the source and aborts the
whole run (`Except.error`); a create failure is caught by the
`try/except` and processing continues. -/
def eventStep (beh : EventBehavior) (now : Int) (event : Event)
    (st : Ledger) (stats : Stats) (tr : List Call) : Except Unit RunAcc :=
  let event_hash := compute_event_hash event
  match List.lookup event.uid st.synced_events with
  | some info =>
    if info.event_hash = event_hash then
      Except.ok (st, { stats with skipped := stats.skipped + 1 }, tr)
    else
      let tr₁ := tr ++ [Call.taskExists event.uid info.todoist_task_id]
      if beh.existsResult then
        if beh.updateOk then
          Except.ok
            (mark_synced st event.uid info.todoist_task_id event_hash
              event.due_date now,
             { stats with updated := stats.updated + 1 },
             tr₁ ++ [Call.updateTask event.uid info.todoist_task_id])
        else Except.error ()
      else Except.ok (createBranch beh now event st stats tr₁)
  | none => Except.ok (createBranch beh now event st stats tr)

/-- The per-event loop, threading the oracle by event position. -/
def runEvents (oracle : Nat → EventBehavior) (now : Int) :
    List Event → Nat → RunAcc → Except Unit RunAcc
  | [], _, acc => Except.ok acc
  | event :: rest, i, (st, stats, tr) =>
    match eventStep (oracle i) now event st stats tr with
    | Except.error e => Except.error e
    | Except.ok acc => runEvents oracle now rest (i + 1) acc

/-- Model of `sync_canvas_to_todoist` (sync.py lines 393-519) from the point where
the feed has been fetched and parsed (configuration validation and feed
fetching abort before the reconciler and are outside the model; project
resolution is total here for the reasons given at the top).  An empty
event list returns early after only `state.save()` (sync.py lines
420-423).  `Except.error` models the uncaught exception path: the process
dies without saving the state and without the summary. -/
def sync_canvas_to_todoist (file : Option (Except Unit Ledger))
    (events : List Event) (dOracle : String → DisBehavior)
    (oracle : Nat → EventBehavior) (now : Int) : Except Unit RunAcc :=
  let state := SyncState.load file
  if events.isEmpty then
    Except.ok (SyncState.save state now, Stats.zero, [])
  else
    let currentUids := events.map Event.uid
    let acc := disappearancePass dOracle now currentUids state
    match runEvents oracle now events 0 acc with
    | Except.error e => Except.error e
    | Except.ok (st, stats, tr) =>
      Except.ok (SyncState.save st now, stats, tr)

/-- Ledger well-formedness: at most one entry per `event_uid`. -/
def keysNodup (l : Ledger) : Prop := (l.synced_events.map Prod.fst).Nodup

/-- An entry the disappearance pass leaves completely alone: stored due
date missing, falsy, unparseable, or not strictly in the future. -/
def disInert (now : Int) (en : Entry) : Prop :=
  en.due_date = none ∨ ∃ s, en.due_date = some s ∧
    (s = "" ∨ fromisoformat s = none ∨ ∃ d, fromisoformat s = some d ∧ d ≤ now)

/-- Well-formedness of the modelled state file: a successfully parsed
JSON object has unique keys; the missing / unparseable cases carry no
ledger. -/
def ledgerFileWF : Option (Except Unit Ledger) → Prop
  | some (Except.ok l) => keysNodup l
  | _ => True

/-! ### Proofs -/

theorem ofDigits_natDigitsAux (fuel : Nat) :
    ∀ n, n ≤ fuel → ofDigits (natDigitsAux fuel n) = n := by
  induction fuel with
  | zero => intro n hn; interval_cases n; rfl
  | succ fuel ih =>
    intro n hn
    match n with
    | 0 => rfl
    | m + 1 =>
      have hdiv : (m + 1) / 10 ≤ fuel := by
        have h1 : (m + 1) / 10 < m + 1 := Nat.div_lt_self (Nat.succ_pos m) (by omega)
        omega
      show ofDigits (((m + 1) % 10) :: natDigitsAux fuel ((m + 1) / 10)) = m + 1
      simp only [ofDigits, ih _ hdiv]
      omega

theorem ofDigits_natDigits (n : Nat) : ofDigits (natDigits n) = n :=
  ofDigits_natDigitsAux n n (Nat.le_refl n)

theorem natDigitsAux_lt_ten (fuel : Nat) :
    ∀ n d, d ∈ natDigitsAux fuel n → d < 10 := by
  induction fuel with
  | zero => intro n d hd; simp [natDigitsAux] at hd
  | succ fuel ih =>
    intro n d hd
    match n with
    | 0 => simp [natDigitsAux] at hd
    | m + 1 =>
      simp only [natDigitsAux, List.mem_cons] at hd
      rcases hd with h | h
      · omega
      · exact ih _ _ h

theorem charDigit_digitChar {d : Nat} (hd : d < 10) :
    charDigit (digitChar d) = some d := by
  interval_cases d <;> decide

theorem decodeDigits_map : ∀ ds : List Nat, ds ≠ [] → (∀ d ∈ ds, d < 10) →
    decodeDigits (ds.map digitChar) = some (ofDigits ds)
  | [], hne, _ => absurd rfl hne
  | [d], _, hlt => by
    have hd : d < 10 := hlt d (List.mem_cons_self d [])
    show charDigit (digitChar d) = some (ofDigits [d])
    rw [charDigit_digitChar hd]
    simp [ofDigits]
  | d :: e :: rest', _, hlt => by
    have hd : d < 10 := hlt d (List.mem_cons_self d (e :: rest'))
    have hrest : decodeDigits ((e :: rest').map digitChar) =
        some (ofDigits (e :: rest')) :=
      decodeDigits_map (e :: rest') (by simp)
        (fun x hx => hlt x (List.mem_cons_of_mem d hx))
    simp only [List.map_cons] at hrest ⊢
    rw [decodeDigits, charDigit_digitChar hd, hrest]
    rfl

theorem decodeDigits_natChars (n : Nat) :
    decodeDigits (natChars n) = some n := by
  by_cases h : n = 0
  · subst h; rfl
  · have hne : natDigits n ≠ [] := by
      intro habs
      have := ofDigits_natDigits n
      rw [habs] at this
      simp [ofDigits] at this
      omega
    unfold natChars
    rw [if_neg h, decodeDigits_map _ hne (natDigitsAux_lt_ten n n),
      ofDigits_natDigits]

theorem natChars_head_digit (n : Nat) :
    ∀ c ∈ natChars n, c ≠ '-' := by
  intro c hc
  unfold natChars at hc
  by_cases h : n = 0
  · rw [h] at hc; simp at hc; subst hc; decide
  · rw [if_neg h] at hc
    simp only [List.mem_map] at hc
    obtain ⟨d, hd, rfl⟩ := hc
    have hlt := natDigitsAux_lt_ten n n d hd
    interval_cases d <;> decide

/-- The round trip that makes `isoformat` a faithful model: every encoded
timestamp parses back to itself. -/
theorem fromisoformat_isoformat (t : Int) :
    fromisoformat (isoformat t) = some t := by
  match t with
  | Int.ofNat n =>
    show fromisoformat ⟨natChars n⟩ = some (Int.ofNat n)
    match hnc : natChars n with
    | [] =>
      exfalso
      have := decodeDigits_natChars n
      rw [hnc] at this
      simp [decodeDigits] at this
    | c :: rest =>
      have hcne : c ≠ '-' := natChars_head_digit n c (hnc ▸ List.mem_cons_self c rest)
      have hdec := decodeDigits_natChars n
      rw [hnc] at hdec
      show (if c = '-' then (decodeDigits rest).map fun n => -(n : Int)
        else (decodeDigits (c :: rest)).map fun n => (n : Int)) = some (Int.ofNat n)
      rw [if_neg hcne, hdec]
      rfl
  | Int.negSucc n =>
    show fromisoformat ⟨'-' :: natChars (n + 1)⟩ = some (Int.negSucc n)
    show (if '-' = '-' then (decodeDigits (natChars (n + 1))).map fun n => -(n : Int)
      else (decodeDigits ('-' :: natChars (n + 1))).map fun n => (n : Int)) =
        some (Int.negSucc n)
    rw [if_pos rfl, decodeDigits_natChars (n + 1)]
    show some (-((n + 1 : Nat) : Int)) = some (Int.negSucc n)
    rw [Int.negSucc_eq]
    push_cast
    ring_nf

/-- Injectivity of the timestamp encoding, from the round trip. -/
theorem isoformat_injective {t₁ t₂ : Int} (h : isoformat t₁ = isoformat t₂) :
    t₁ = t₂ := by
  have h₁ := fromisoformat_isoformat t₁
  have h₂ := fromisoformat_isoformat t₂
  rw [h, h₂] at h₁
  exact (Option.some.inj h₁).symm

/-! ### Dictionary lemmas -/

theorem lookup_setKey_self (l : List (String × Entry)) (k : String) (v : Entry) :
    List.lookup k (setKey l k v) = some v := by
  induction l with
  | nil => simp [setKey, List.lookup_cons]
  | cons kv rest ih =>
    obtain ⟨k', v'⟩ := kv
    by_cases h : k' = k
    · simp [setKey, h, List.lookup_cons]
    · simp only [setKey, if_neg h, List.lookup_cons]
      have : (k == k') = false := by
        simp only [beq_eq_false_iff_ne, ne_eq]
        exact fun habs => h habs.symm
      rw [this]
      exact ih

theorem lookup_setKey_ne (l : List (String × Entry)) {k u : String} (v : Entry)
    (h : u ≠ k) : List.lookup u (setKey l k v) = List.lookup u l := by
  have hbk : (u == k) = false := by simpa [beq_eq_false_iff_ne]
  induction l with
  | nil => simp [setKey, List.lookup_cons, hbk]
  | cons kv rest ih =>
    obtain ⟨k', v'⟩ := kv
    by_cases hk : k' = k
    · subst hk
      simp [setKey, List.lookup_cons, hbk]
    · simp only [setKey, if_neg hk, List.lookup_cons]
      cases hbeq : (u == k') with
      | true => rfl
      | false => exact ih

theorem lookup_filterKey_ne (l : List (String × Entry)) {k u : String}
    (h : u ≠ k) :
    List.lookup u (l.filter fun kv => kv.1 ≠ k) = List.lookup u l := by
  induction l with
  | nil => rfl
  | cons kv rest ih =>
    obtain ⟨k', v'⟩ := kv
    rw [List.filter_cons]
    by_cases hk : k' = k
    · subst hk
      rw [if_neg (by simp : ¬((decide ((k', v').1 ≠ k') : Bool) = true))]
      have hbk : (u == k') = false := by simpa [beq_eq_false_iff_ne]
      rw [List.lookup_cons, hbk]
      exact ih
    · rw [if_pos (by simp [hk] : (decide ((k', v').1 ≠ k) : Bool) = true)]
      rw [List.lookup_cons, List.lookup_cons]
      cases hbeq : (u == k') with
      | true => rfl
      | false => exact ih

theorem lookup_filterKey_self (l : List (String × Entry)) (k : String) :
    List.lookup k (l.filter fun kv => kv.1 ≠ k) = none := by
  induction l with
  | nil => rfl
  | cons kv rest ih =>
    obtain ⟨k', v'⟩ := kv
    rw [List.filter_cons]
    by_cases hk : k' = k
    · subst hk
      rw [if_neg (by simp : ¬((decide ((k', v').1 ≠ k') : Bool) = true))]
      exact ih
    · rw [if_pos (by simp [hk] : (decide ((k', v').1 ≠ k) : Bool) = true)]
      have hbeq : (k == k') = false := by
        simp only [beq_eq_false_iff_ne, ne_eq]
        exact fun habs => hk habs.symm
      rw [List.lookup_cons, hbeq]
      exact ih

theorem lookup_none_filter (l : List (String × Entry)) (p : String × Entry → Bool)
    {u : String} (h : List.lookup u l = none) :
    List.lookup u (l.filter p) = none := by
  induction l with
  | nil => rfl
  | cons kv rest ih =>
    obtain ⟨k', v'⟩ := kv
    simp only [List.lookup_cons] at h
    rw [List.filter_cons]
    cases hbeq : (u == k') with
    | true => rw [hbeq] at h; exact absurd h (by simp)
    | false =>
      rw [hbeq] at h
      by_cases hp : p (k', v') = true
      · rw [if_pos hp, List.lookup_cons, hbeq]
        exact ih h
      · rw [if_neg hp]
        exact ih h

theorem mem_keys_of_lookup {l : List (String × Entry)} {u : String} {en : Entry}
    (h : List.lookup u l = some en) : u ∈ l.map Prod.fst := by
  induction l with
  | nil => simp [List.lookup_nil] at h
  | cons kv rest ih =>
    obtain ⟨k', v'⟩ := kv
    simp only [List.lookup_cons] at h
    cases hbeq : (u == k') with
    | true =>
      have : u = k' := by simpa using hbeq
      simp [this]
    | false =>
      rw [hbeq] at h
      simp only [List.map_cons, List.mem_cons]
      exact Or.inr (ih h)

theorem keys_setKey_subset : ∀ {l : List (String × Entry)} {k x : String}
    {v : Entry}, x ∈ (setKey l k v).map Prod.fst → x = k ∨ x ∈ l.map Prod.fst
  | [], k, x, v, h => by simpa [setKey] using h
  | (k', v') :: rest, k, x, v, h => by
    by_cases hk : k' = k
    · subst hk
      simp only [setKey, if_true] at h
      simp only [List.map_cons, List.mem_cons] at h ⊢
      tauto
    · simp only [setKey] at h
      rw [if_neg hk] at h
      simp only [List.map_cons, List.mem_cons] at h ⊢
      rcases h with h | h
      · tauto
      · rcases keys_setKey_subset h with h | h <;> tauto

theorem nodup_keys_setKey {l : List (String × Entry)} (k : String) (v : Entry)
    (h : (l.map Prod.fst).Nodup) : ((setKey l k v).map Prod.fst).Nodup := by
  induction l with
  | nil => simp [setKey]
  | cons kv rest ih =>
    obtain ⟨k', v'⟩ := kv
    simp only [List.map_cons, List.nodup_cons] at h
    by_cases hk : k' = k
    · subst hk
      simp only [setKey, if_true]
      simp only [List.map_cons, List.nodup_cons]
      exact h
    · simp only [setKey]
      rw [if_neg hk]
      simp only [List.map_cons, List.nodup_cons]
      refine ⟨fun habs => ?_, ih h.2⟩
      rcases keys_setKey_subset habs with rfl | hmem
      · exact hk rfl
      · exact h.1 hmem

theorem nodup_keys_filter {l : List (String × Entry)} (p : String × Entry → Bool)
    (h : (l.map Prod.fst).Nodup) : (((l.filter p).map Prod.fst)).Nodup :=
  ((l.filter_sublist).map Prod.fst).nodup h

/-! ### Disappearance-pass lemmas -/

theorem disStep_of_mem {d : String → DisBehavior} {now : Int}
    {cu : List String} {acc : RunAcc} {k : String} (h : k ∈ cu) :
    disStep d now cu acc k = acc := by
  obtain ⟨st, stats, tr⟩ := acc
  simp [disStep, h]

theorem disStep_of_lookup_none {d : String → DisBehavior} {now : Int}
    {cu : List String} {acc : RunAcc} {k : String}
    (h : List.lookup k acc.1.synced_events = none) :
    disStep d now cu acc k = acc := by
  obtain ⟨st, stats, tr⟩ := acc
  by_cases hm : k ∈ cu
  · simp [disStep, hm]
  · simp only at h
    simp [disStep, hm, h]

theorem disStep_inert {d : String → DisBehavior} {now : Int}
    {cu : List String} {acc : RunAcc} {k : String} {en : Entry}
    (hlk : List.lookup k acc.1.synced_events = some en)
    (hin : disInert now en) :
    disStep d now cu acc k = acc := by
  obtain ⟨st, stats, tr⟩ := acc
  by_cases hm : k ∈ cu
  · simp [disStep, hm]
  · simp only at hlk
    rcases hin with hdd | ⟨s, hdd, hs⟩
    · simp [disStep, hm, hlk, hdd]
    · rcases hs with hs | hs | ⟨dv, hp, hled⟩
      · simp [disStep, hm, hlk, hdd, hs]
      · simp [disStep, hm, hlk, hdd, hs]
      · simp [disStep, hm, hlk, hdd, hp, not_lt.mpr hled]

theorem disStep_ripe {d : String → DisBehavior} {now : Int}
    {cu : List String} {st : Ledger} {stats : Stats} {tr : List Call}
    {k : String} {en : Entry} {s : String} {dv : Int}
    (hcu : k ∉ cu) (hlk : List.lookup k st.synced_events = some en)
    (hdd : en.due_date = some s) (hp : fromisoformat s = some dv)
    (hlt : now < dv) :
    disStep d now cu (st, stats, tr) k =
      if (d k).existsResult then
        (mark_completed st k,
         if (d k).completeOk then
           { stats with completed := stats.completed + 1 } else stats,
         tr ++ [Call.taskExists k en.todoist_task_id,
                Call.completeTask k en.todoist_task_id])
      else
        (mark_completed st k, stats,
         tr ++ [Call.taskExists k en.todoist_task_id]) := by
  have hs : s ≠ "" := by
    intro habs
    rw [habs] at hp
    exact absurd hp (by simp [fromisoformat])
  simp only [disStep, if_neg hcu, hlk, hdd, if_neg hs, hp, if_pos hlt]
  cases hex : (d k).existsResult <;> simp [hex]

/-- Every step of the disappearance pass either does nothing or removes
exactly the processed key (which is not a current event uid) and appends
only existence / completion calls tagged with that key, leaving the
non-`completed` counters alone. -/
theorem disStep_shape (d : String → DisBehavior) (now : Int) (cu : List String)
    (st : Ledger) (stats : Stats) (tr : List Call) (k : String) :
    disStep d now cu (st, stats, tr) k = (st, stats, tr) ∨
    (k ∉ cu ∧ ∃ tid stats' ext,
      disStep d now cu (st, stats, tr) k = (mark_completed st k, stats', tr ++ ext) ∧
      (ext = [Call.taskExists k tid] ∨
        ext = [Call.taskExists k tid, Call.completeTask k tid]) ∧
      stats'.created = stats.created ∧ stats'.updated = stats.updated ∧
      stats'.skipped = stats.skipped) := by
  by_cases hm : k ∈ cu
  · exact Or.inl (disStep_of_mem hm)
  · cases hlk : List.lookup k st.synced_events with
    | none => exact Or.inl (disStep_of_lookup_none hlk)
    | some en =>
      cases hdd : en.due_date with
      | none => exact Or.inl (disStep_inert hlk (Or.inl hdd))
      | some s =>
        by_cases hse : s = ""
        · exact Or.inl (disStep_inert hlk (Or.inr ⟨s, hdd, Or.inl hse⟩))
        · cases hfp : fromisoformat s with
          | none =>
            exact Or.inl (disStep_inert hlk (Or.inr ⟨s, hdd, Or.inr (Or.inl hfp)⟩))
          | some dv =>
            by_cases hnd : now < dv
            · right
              rw [disStep_ripe hm hlk hdd hfp hnd]
              cases hex : (d k).existsResult with
              | true =>
                refine ⟨hm, en.todoist_task_id,
                  (if (d k).completeOk = true then
                    { stats with completed := stats.completed + 1 } else stats),
                  [Call.taskExists k en.todoist_task_id,
                   Call.completeTask k en.todoist_task_id],
                  by simp, Or.inr rfl, ?_, ?_, ?_⟩ <;>
                  cases (d k).completeOk <;> rfl
              | false =>
                exact ⟨hm, en.todoist_task_id, stats,
                  [Call.taskExists k en.todoist_task_id],
                  by simp, Or.inl rfl, rfl, rfl, rfl⟩
            · exact Or.inl (disStep_inert hlk
                (Or.inr ⟨s, hdd, Or.inr (Or.inr ⟨dv, hfp, by omega⟩)⟩))

theorem countCreate_append (a b : List Call) :
    countCreate (a ++ b) = countCreate a + countCreate b :=
  List.countP_append _ a b

theorem countUpdate_append (a b : List Call) :
    countUpdate (a ++ b) = countUpdate a + countUpdate b :=
  List.countP_append _ a b

theorem disFold_stats_trace (d : String → DisBehavior) (now : Int)
    (cu : List String) : ∀ (keys : List String) (st : Ledger) (stats : Stats)
      (tr : List Call),
    ∃ st' stats' ext,
      keys.foldl (disStep d now cu) (st, stats, tr) = (st', stats', tr ++ ext) ∧
      stats'.created = stats.created ∧ stats'.updated = stats.updated ∧
      stats'.skipped = stats.skipped ∧ countCreate ext = 0 ∧
      countUpdate ext = 0 ∧ st'.last_sync = st.last_sync
  | [], st, stats, tr => ⟨st, stats, [], by simp, rfl, rfl, rfl, rfl, rfl, rfl⟩
  | k :: keys, st, stats, tr => by
    rcases disStep_shape d now cu st stats tr k with hstep | ⟨_, tid, stats₁, e₁, hstep, hext, hc, hu, hs⟩
    · simpa [List.foldl_cons, hstep] using disFold_stats_trace d now cu keys st stats tr
    · obtain ⟨st', stats', ext, hfold, hc', hu', hs', hcc, hcu', hls⟩ :=
        disFold_stats_trace d now cu keys (mark_completed st k) stats₁ (tr ++ e₁)
      refine ⟨st', stats', e₁ ++ ext, ?_, ?_, ?_, ?_, ?_, ?_, ?_⟩
      · rw [List.foldl_cons, hstep, hfold, List.append_assoc]
      · rw [hc', hc]
      · rw [hu', hu]
      · rw [hs', hs]
      · rcases hext with rfl | rfl <;> rw [countCreate_append, hcc] <;> rfl
      · rcases hext with rfl | rfl <;> rw [countUpdate_append, hcu'] <;> rfl
      · rw [hls]; rfl

theorem disFold_mem_preserve (d : String → DisBehavior) (now : Int)
    (cu : List String) (uid : String) (hcu : uid ∈ cu) :
    ∀ (keys : List String) (st : Ledger) (stats : Stats) (tr : List Call),
      List.lookup uid
        ((keys.foldl (disStep d now cu) (st, stats, tr)).1.synced_events) =
        List.lookup uid st.synced_events
  | [], st, stats, tr => rfl
  | k :: keys, st, stats, tr => by
    rcases disStep_shape d now cu st stats tr k with hstep | ⟨hkcu, tid, stats₁, e₁, hstep, hext, _, _, _⟩
    · rw [List.foldl_cons, hstep]
      exact disFold_mem_preserve d now cu uid hcu keys st stats tr
    · have hne : uid ≠ k := fun habs => hkcu (habs ▸ hcu)
      rw [List.foldl_cons, hstep]
      rw [disFold_mem_preserve d now cu uid hcu keys (mark_completed st k) stats₁ (tr ++ e₁)]
      exact lookup_filterKey_ne st.synced_events hne

theorem disFold_inert_preserve (d : String → DisBehavior) (now : Int)
    (cu : List String) (uid : String) (en : Entry) (hin : disInert now en) :
    ∀ (keys : List String) (st : Ledger) (stats : Stats) (tr : List Call),
      List.lookup uid st.synced_events = some en →
      ∃ st' stats' ext,
        keys.foldl (disStep d now cu) (st, stats, tr) = (st', stats', tr ++ ext) ∧
        List.lookup uid st'.synced_events = some en ∧
        ∀ c ∈ ext, Call.uidOf c ≠ uid
  | [], st, stats, tr, hlk => ⟨st, stats, [], by simp, hlk, by simp⟩
  | k :: keys, st, stats, tr, hlk => by
    by_cases hk : k = uid
    · subst hk
      rw [List.foldl_cons, disStep_inert hlk hin]
      exact disFold_inert_preserve d now cu k en hin keys st stats tr hlk
    · rcases disStep_shape d now cu st stats tr k with hstep | ⟨_, tid, stats₁, e₁, hstep, hext, _, _, _⟩
      · rw [List.foldl_cons, hstep]
        exact disFold_inert_preserve d now cu uid en hin keys st stats tr hlk
      · have hlk₁ : List.lookup uid (mark_completed st k).synced_events = some en := by
          show List.lookup uid
            (st.synced_events.filter fun kv => kv.1 ≠ k) = some en
          rw [lookup_filterKey_ne st.synced_events
            (fun habs => hk habs.symm : uid ≠ k)]
          exact hlk
        obtain ⟨st', stats', ext, hfold, hlk', htag⟩ :=
          disFold_inert_preserve d now cu uid en hin keys
            (mark_completed st k) stats₁ (tr ++ e₁) hlk₁
        refine ⟨st', stats', e₁ ++ ext, ?_, hlk', ?_⟩
        · rw [List.foldl_cons, hstep, hfold, List.append_assoc]
        · intro c hc
          rcases List.mem_append.mp hc with hc | hc
          · rcases hext with rfl | rfl <;> simp at hc <;>
              rcases hc with rfl | rfl <;> simp [Call.uidOf, hk]
          · exact htag c hc

theorem disFold_none_preserve (d : String → DisBehavior) (now : Int)
    (cu : List String) (uid : String) :
    ∀ (keys : List String) (st : Ledger) (stats : Stats) (tr : List Call),
      List.lookup uid st.synced_events = none →
      ∃ st' stats' ext,
        keys.foldl (disStep d now cu) (st, stats, tr) = (st', stats', tr ++ ext) ∧
        List.lookup uid st'.synced_events = none ∧
        ∀ c ∈ ext, Call.uidOf c ≠ uid
  | [], st, stats, tr, hlk => ⟨st, stats, [], by simp, hlk, by simp⟩
  | k :: keys, st, stats, tr, hlk => by
    by_cases hk : k = uid
    · subst hk
      rw [List.foldl_cons, disStep_of_lookup_none hlk]
      exact disFold_none_preserve d now cu k keys st stats tr hlk
    · rcases disStep_shape d now cu st stats tr k with hstep | ⟨_, tid, stats₁, e₁, hstep, hext, _, _, _⟩
      · rw [List.foldl_cons, hstep]
        exact disFold_none_preserve d now cu uid keys st stats tr hlk
      · have hlk₁ : List.lookup uid (mark_completed st k).synced_events = none := by
          show List.lookup uid
            (st.synced_events.filter fun kv => kv.1 ≠ k) = none
          exact lookup_none_filter st.synced_events _ hlk
        obtain ⟨st', stats', ext, hfold, hlk', htag⟩ :=
          disFold_none_preserve d now cu uid keys
            (mark_completed st k) stats₁ (tr ++ e₁) hlk₁
        refine ⟨st', stats', e₁ ++ ext, ?_, hlk', ?_⟩
        · rw [List.foldl_cons, hstep, hfold, List.append_assoc]
        · intro c hc
          rcases List.mem_append.mp hc with hc | hc
          · rcases hext with rfl | rfl <;> simp at hc <;>
              rcases hc with rfl | rfl <;> simp [Call.uidOf, hk]
          · exact htag c hc

theorem disFold_ripe (d : String → DisBehavior) (now : Int)
    (cu : List String) (uid : String) (en : Entry) (s : String) (dv : Int)
    (hcu : uid ∉ cu) (hdd : en.due_date = some s)
    (hp : fromisoformat s = some dv) (hlt : now < dv) :
    ∀ (keys : List String) (st : Ledger) (stats : Stats) (tr : List Call),
      List.lookup uid st.synced_events = some en → uid ∈ keys →
      ∃ st' stats' ext,
        keys.foldl (disStep d now cu) (st, stats, tr) = (st', stats', tr ++ ext) ∧
        List.lookup uid st'.synced_events = none ∧
        Call.taskExists uid en.todoist_task_id ∈ ext ∧
        ((d uid).existsResult = true →
          Call.completeTask uid en.todoist_task_id ∈ ext) ∧
        ((d uid).existsResult = false →
          ∀ tid, Call.completeTask uid tid ∉ ext)
  | [], _, _, _, _, hmem => absurd hmem (List.not_mem_nil uid)
  | k :: keys, st, stats, tr, hlk, hmem => by
    by_cases hk : k = uid
    · subst hk
      rw [List.foldl_cons, disStep_ripe hcu hlk hdd hp hlt]
      have hlk₁ : List.lookup k (mark_completed st k).synced_events = none := by
        show List.lookup k
          (st.synced_events.filter fun kv => kv.1 ≠ k) = none
        exact lookup_filterKey_self st.synced_events k
      cases hex : (d k).existsResult with
      | true =>
        rw [if_pos rfl]
        obtain ⟨st', stats', ext, hfold, hnone, htag⟩ :=
          disFold_none_preserve d now cu k keys (mark_completed st k)
            (if (d k).completeOk then
              { stats with completed := stats.completed + 1 } else stats)
            (tr ++ [Call.taskExists k en.todoist_task_id,
                    Call.completeTask k en.todoist_task_id]) hlk₁
        refine ⟨st', stats',
          [Call.taskExists k en.todoist_task_id,
           Call.completeTask k en.todoist_task_id] ++ ext, ?_, hnone, ?_, ?_, ?_⟩
        · rw [hfold, List.append_assoc]
        · simp
        · intro _; simp
        · intro hcontra; simp at hcontra
      | false =>
        rw [if_neg (by simp : ¬(false = true))]
        obtain ⟨st', stats', ext, hfold, hnone, htag⟩ :=
          disFold_none_preserve d now cu k keys (mark_completed st k) stats
            (tr ++ [Call.taskExists k en.todoist_task_id]) hlk₁
        refine ⟨st', stats',
          [Call.taskExists k en.todoist_task_id] ++ ext, ?_, hnone, ?_, ?_, ?_⟩
        · rw [hfold, List.append_assoc]
        · simp
        · intro hcontra; simp at hcontra
        · intro _ tid hmem'
          rcases List.mem_append.mp hmem' with h | h
          · simp at h
          · have := htag _ h
            simp [Call.uidOf] at this
    · have hmem' : uid ∈ keys := by
        rcases List.mem_cons.mp hmem with h | h
        · exact absurd h.symm hk
        · exact h
      rcases disStep_shape d now cu st stats tr k with hstep | ⟨_, tid, stats₁, e₁, hstep, hext, _, _, _⟩
      · rw [List.foldl_cons, hstep]
        exact disFold_ripe d now cu uid en s dv hcu hdd hp hlt keys st stats tr hlk hmem'
      · have hlk₁ : List.lookup uid (mark_completed st k).synced_events = some en := by
          show List.lookup uid
            (st.synced_events.filter fun kv => kv.1 ≠ k) = some en
          rw [lookup_filterKey_ne st.synced_events
            (fun habs => hk habs.symm : uid ≠ k)]
          exact hlk
        obtain ⟨st', stats', ext, hfold, hnone, hte, hcm, hncm⟩ :=
          disFold_ripe d now cu uid en s dv hcu hdd hp hlt keys
            (mark_completed st k) stats₁ (tr ++ e₁) hlk₁ hmem'
        refine ⟨st', stats', e₁ ++ ext, ?_, hnone, ?_, ?_, ?_⟩
        · rw [List.foldl_cons, hstep, hfold, List.append_assoc]
        · exact List.mem_append.mpr (Or.inr hte)
        · exact fun hx => List.mem_append.mpr (Or.inr (hcm hx))
        · intro hx tid' hmem''
          rcases List.mem_append.mp hmem'' with h | h
          · rcases hext with rfl | rfl
            · simp at h
            · simp at h
              exact hk h.1.symm
          · exact hncm hx tid' h

theorem disFold_nodup (d : String → DisBehavior) (now : Int)
    (cu : List String) :
    ∀ (keys : List String) (st : Ledger) (stats : Stats) (tr : List Call),
      keysNodup st →
      keysNodup (keys.foldl (disStep d now cu) (st, stats, tr)).1
  | [], st, stats, tr, h => h
  | k :: keys, st, stats, tr, h => by
    rcases disStep_shape d now cu st stats tr k with hstep | ⟨_, tid, stats₁, e₁, hstep, hext, _, _, _⟩
    · rw [List.foldl_cons, hstep]
      exact disFold_nodup d now cu keys st stats tr h
    · rw [List.foldl_cons, hstep]
      exact disFold_nodup d now cu keys (mark_completed st k) stats₁ (tr ++ e₁)
        (nodup_keys_filter _ h)

/-! ### Per-event pass lemmas -/

theorem eventStep_skip {beh : EventBehavior} {now : Int} {event : Event}
    {st : Ledger} {stats : Stats} {tr : List Call} {info : Entry}
    (hlk : List.lookup event.uid st.synced_events = some info)
    (hhash : info.event_hash = compute_event_hash event) :
    eventStep beh now event st stats tr =
      Except.ok (st, { stats with skipped := stats.skipped + 1 }, tr) := by
  simp [eventStep, hlk, hhash]

theorem eventStep_update {beh : EventBehavior} {now : Int} {event : Event}
    {st : Ledger} {stats : Stats} {tr : List Call} {info : Entry}
    (hlk : List.lookup event.uid st.synced_events = some info)
    (hhash : info.event_hash ≠ compute_event_hash event)
    (hex : beh.existsResult = true) (hup : beh.updateOk = true) :
    eventStep beh now event st stats tr =
      Except.ok
        (mark_synced st event.uid info.todoist_task_id
          (compute_event_hash event) event.due_date now,
         { stats with updated := stats.updated + 1 },
         tr ++ [Call.taskExists event.uid info.todoist_task_id,
                Call.updateTask event.uid info.todoist_task_id]) := by
  simp [eventStep, hlk, hhash, hex, hup]

theorem eventStep_update_aborts {beh : EventBehavior} {now : Int}
    {event : Event} {st : Ledger} {stats : Stats} {tr : List Call}
    {info : Entry}
    (hlk : List.lookup event.uid st.synced_events = some info)
    (hhash : info.event_hash ≠ compute_event_hash event)
    (hex : beh.existsResult = true) (hup : beh.updateOk = false) :
    eventStep beh now event st stats tr = Except.error () := by
  simp [eventStep, hlk, hhash, hex, hup]

theorem createBranch_fail {beh : EventBehavior} {now : Int} {event : Event}
    {st : Ledger} {stats : Stats} {tr : List Call}
    (hcr : beh.createResult = none) :
    createBranch beh now event st stats tr =
      (st, stats, tr ++ [Call.createTask event.uid]) := by
  simp [createBranch, hcr]

theorem createBranch_ok {beh : EventBehavior} {now : Int} {event : Event}
    {st : Ledger} {stats : Stats} {tr : List Call} {tid : String}
    (hcr : beh.createResult = some tid) :
    createBranch beh now event st stats tr =
      (mark_synced st event.uid tid (compute_event_hash event)
        event.due_date now,
       { stats with created := stats.created + 1 },
       tr ++ Call.createTask event.uid ::
         (if 0 < REMINDER_DAYS_BEFORE ∧
             now < event.due_datetime - 86400 * REMINDER_DAYS_BEFORE then
           [Call.addReminder event.uid] else [])) := by
  by_cases hrem : 0 < REMINDER_DAYS_BEFORE ∧
      now < event.due_datetime - 86400 * REMINDER_DAYS_BEFORE
  · simp [createBranch, hcr, hrem]
  · simp [createBranch, hcr, hrem]

theorem eventStep_create_of_none {beh : EventBehavior} {now : Int}
    {event : Event} {st : Ledger} {stats : Stats} {tr : List Call}
    (hlk : List.lookup event.uid st.synced_events = none) :
    eventStep beh now event st stats tr =
      Except.ok (createBranch beh now event st stats tr) := by
  simp [eventStep, hlk]

theorem eventStep_create_of_stale {beh : EventBehavior} {now : Int}
    {event : Event} {st : Ledger} {stats : Stats} {tr : List Call}
    {info : Entry}
    (hlk : List.lookup event.uid st.synced_events = some info)
    (hhash : info.event_hash ≠ compute_event_hash event)
    (hex : beh.existsResult = false) :
    eventStep beh now event st stats tr =
      Except.ok (createBranch beh now event st stats
        (tr ++ [Call.taskExists event.uid info.todoist_task_id])) := by
  simp [eventStep, hlk, hhash, hex]

/-- The per-event step either raises (only possible on a failing update)
or succeeds, appends only calls tagged with the event's uid, changes the
ledger at most at the event's own key, and preserves `last_sync`. -/
theorem eventStep_shape (beh : EventBehavior) (now : Int) (event : Event)
    (st : Ledger) (stats : Stats) (tr : List Call) :
    eventStep beh now event st stats tr = Except.error () ∨
    ∃ st' stats' ext,
      eventStep beh now event st stats tr = Except.ok (st', stats', tr ++ ext) ∧
      (∀ c ∈ ext, Call.uidOf c = event.uid) ∧
      (st'.synced_events = st.synced_events ∨
        ∃ v, st'.synced_events = setKey st.synced_events event.uid v) ∧
      st'.last_sync = st.last_sync := by
  cases hlk : List.lookup event.uid st.synced_events with
  | none =>
    right
    rw [eventStep_create_of_none hlk]
    cases hcr : beh.createResult with
    | none =>
      rw [createBranch_fail hcr]
      exact ⟨st, stats, [Call.createTask event.uid], rfl,
        by simp [Call.uidOf], Or.inl rfl, rfl⟩
    | some tid =>
      rw [createBranch_ok hcr]
      refine ⟨mark_synced st event.uid tid (compute_event_hash event)
          event.due_date now,
        { stats with created := stats.created + 1 },
        Call.createTask event.uid ::
          (if 0 < REMINDER_DAYS_BEFORE ∧
              now < event.due_datetime - 86400 * REMINDER_DAYS_BEFORE then
            [Call.addReminder event.uid] else []),
        rfl, ?_, Or.inr ⟨_, rfl⟩, rfl⟩
      intro c hc
      by_cases hrem : 0 < REMINDER_DAYS_BEFORE ∧
          now < event.due_datetime - 86400 * REMINDER_DAYS_BEFORE
      · rw [if_pos hrem] at hc
        rcases (by simpa using hc : c = Call.createTask event.uid ∨
          c = Call.addReminder event.uid) with rfl | rfl <;> rfl
      · rw [if_neg hrem] at hc
        rcases (by simpa using hc : c = Call.createTask event.uid) with rfl
        rfl
  | some info =>
    by_cases hhash : info.event_hash = compute_event_hash event
    · right
      rw [eventStep_skip hlk hhash]
      exact ⟨st, { stats with skipped := stats.skipped + 1 }, [],
        by simp, by simp, Or.inl rfl, rfl⟩
    · cases hex : beh.existsResult with
      | true =>
        cases hup : beh.updateOk with
        | true =>
          right
          rw [eventStep_update hlk hhash hex hup]
          refine ⟨mark_synced st event.uid info.todoist_task_id
              (compute_event_hash event) event.due_date now,
            { stats with updated := stats.updated + 1 },
            [Call.taskExists event.uid info.todoist_task_id,
             Call.updateTask event.uid info.todoist_task_id],
            rfl, ?_, Or.inr ⟨_, rfl⟩, rfl⟩
          intro c hc
          rcases (by simpa using hc :
            c = Call.taskExists event.uid info.todoist_task_id ∨
            c = Call.updateTask event.uid info.todoist_task_id) with rfl | rfl <;> rfl
        | false => exact Or.inl (eventStep_update_aborts hlk hhash hex hup)
      | false =>
        right
        rw [eventStep_create_of_stale hlk hhash hex]
        cases hcr : beh.createResult with
        | none =>
          rw [createBranch_fail hcr]
          refine ⟨st, stats, _, by rw [List.append_assoc], ?_, Or.inl rfl, rfl⟩
          intro c hc
          rcases (by simpa using hc :
            c = Call.taskExists event.uid info.todoist_task_id ∨
            c = Call.createTask event.uid) with rfl | rfl <;> rfl
        | some tid =>
          rw [createBranch_ok hcr]
          refine ⟨mark_synced st event.uid tid (compute_event_hash event)
              event.due_date now,
            { stats with created := stats.created + 1 },
            Call.taskExists event.uid info.todoist_task_id ::
              Call.createTask event.uid ::
              (if 0 < REMINDER_DAYS_BEFORE ∧
                  now < event.due_datetime - 86400 * REMINDER_DAYS_BEFORE then
                [Call.addReminder event.uid] else []),
            by rw [List.append_assoc]; rfl, ?_, Or.inr ⟨_, rfl⟩, rfl⟩
          intro c hc
          by_cases hrem : 0 < REMINDER_DAYS_BEFORE ∧
              now < event.due_datetime - 86400 * REMINDER_DAYS_BEFORE
          · rw [if_pos hrem] at hc
            rcases (by simpa using hc :
              c = Call.taskExists event.uid info.todoist_task_id ∨
              c = Call.createTask event.uid ∨
              c = Call.addReminder event.uid) with rfl | rfl | rfl <;> rfl
          · rw [if_neg hrem] at hc
            rcases (by simpa using hc :
              c = Call.taskExists event.uid info.todoist_task_id ∨
              c = Call.createTask event.uid) with rfl | rfl <;> rfl

theorem eventStep_ok {beh : EventBehavior} (now : Int) (event : Event)
    (st : Ledger) (stats : Stats) (tr : List Call)
    (hup : beh.updateOk = true) :
    ∃ acc, eventStep beh now event st stats tr = Except.ok acc := by
  rcases eventStep_shape beh now event st stats tr with herr | ⟨st', stats', ext, hok, _⟩
  · exfalso
    cases hlk : List.lookup event.uid st.synced_events with
    | none => rw [eventStep_create_of_none hlk] at herr; exact absurd herr (by simp)
    | some info =>
      by_cases hhash : info.event_hash = compute_event_hash event
      · rw [eventStep_skip hlk hhash] at herr; exact absurd herr (by simp)
      · cases hex : beh.existsResult with
        | true =>
          rw [eventStep_update hlk hhash hex hup] at herr
          exact absurd herr (by simp)
        | false =>
          rw [eventStep_create_of_stale hlk hhash hex] at herr
          exact absurd herr (by simp)
  · exact ⟨_, hok⟩

theorem runEvents_ok (oracle : Nat → EventBehavior) (now : Int)
    (hup : ∀ i, (oracle i).updateOk = true) :
    ∀ (events : List Event) (i : Nat) (st : Ledger) (stats : Stats)
      (tr : List Call),
      ∃ acc, runEvents oracle now events i (st, stats, tr) = Except.ok acc
  | [], i, st, stats, tr => ⟨(st, stats, tr), rfl⟩
  | e :: events, i, st, stats, tr => by
    obtain ⟨⟨st₁, stats₁, tr₁⟩, hstep⟩ := eventStep_ok now e st stats tr (hup i)
    obtain ⟨acc, hrest⟩ := runEvents_ok oracle now hup events (i + 1) st₁ stats₁ tr₁
    exact ⟨acc, by rw [runEvents, hstep]; exact hrest⟩

theorem runEvents_preserve (oracle : Nat → EventBehavior) (now : Int)
    (uid : String) :
    ∀ (events : List Event) (i : Nat) (st : Ledger) (stats : Stats)
      (tr : List Call) (st' : Ledger) (stats' : Stats) (tr' : List Call),
      uid ∉ events.map Event.uid →
      runEvents oracle now events i (st, stats, tr) =
        Except.ok (st', stats', tr') →
      List.lookup uid st'.synced_events = List.lookup uid st.synced_events ∧
      st'.last_sync = st.last_sync ∧
      ∃ ext, tr' = tr ++ ext ∧ ∀ c ∈ ext, Call.uidOf c ≠ uid
  | [], i, st, stats, tr, st', stats', tr', _, hrun => by
    cases hrun
    exact ⟨rfl, rfl, [], by simp, by simp⟩
  | e :: events, i, st, stats, tr, st', stats', tr', hmem, hrun => by
    have hne : e.uid ≠ uid := by
      intro habs
      exact hmem (by simp [habs.symm])
    have hmem' : uid ∉ events.map Event.uid := by
      intro habs
      exact hmem (by simp [habs])
    rcases eventStep_shape (oracle i) now e st stats tr with herr | ⟨st₁, stats₁, ext₁, hok, htag, hsy, hls⟩
    · rw [runEvents, herr] at hrun
      exact absurd hrun (by simp)
    · rw [runEvents, hok] at hrun
      obtain ⟨hlk, hls', ext, hext, htag'⟩ :=
        runEvents_preserve oracle now uid events (i + 1) st₁ stats₁
          (tr ++ ext₁) st' stats' tr' hmem' hrun
      refine ⟨?_, by rw [hls', hls], ext₁ ++ ext, by rw [hext, List.append_assoc], ?_⟩
      · rw [hlk]
        rcases hsy with hsy | ⟨v, hsy⟩
        · rw [hsy]
        · rw [hsy, lookup_setKey_ne st.synced_events v
            (fun habs => hne habs.symm)]
      · intro c hc
        rcases List.mem_append.mp hc with hc | hc
        · rw [htag c hc]; exact hne
        · exact htag' c hc

theorem runEvents_allSkip (oracle : Nat → EventBehavior) (now : Int) :
    ∀ (events : List Event) (i : Nat) (st : Ledger) (stats : Stats)
      (tr : List Call),
      (∀ e ∈ events, ∃ info, List.lookup e.uid st.synced_events = some info ∧
        info.event_hash = compute_event_hash e) →
      runEvents oracle now events i (st, stats, tr) =
        Except.ok (st,
          { stats with skipped := stats.skipped + events.length }, tr)
  | [], i, st, stats, tr, _ => by simp [runEvents]
  | e :: events, i, st, stats, tr, hall => by
    obtain ⟨info, hlk, hhash⟩ := hall e (List.mem_cons_self e events)
    rw [runEvents, eventStep_skip hlk hhash]
    show runEvents oracle now events (i + 1)
      (st, { stats with skipped := stats.skipped + 1 }, tr) = _
    rw [runEvents_allSkip oracle now events (i + 1) st _ tr
      (fun e' he' => hall e' (List.mem_cons_of_mem e he'))]
    simp only [List.length_cons, Except.ok.injEq, Prod.mk.injEq,
      Stats.mk.injEq, true_and, and_true]
    omega

theorem runEvents_success (oracle : Nat → EventBehavior) (now : Int)
    (hup : ∀ i, (oracle i).updateOk = true)
    (hcr : ∀ i, (oracle i).createResult ≠ none) :
    ∀ (events : List Event) (i : Nat) (st : Ledger) (stats : Stats)
      (tr : List Call),
      (events.map Event.uid).Nodup →
      ∃ st' stats' tr',
        runEvents oracle now events i (st, stats, tr) =
          Except.ok (st', stats', tr') ∧
        ∀ e ∈ events, ∃ en, List.lookup e.uid st'.synced_events = some en ∧
          en.event_hash = compute_event_hash e
  | [], i, st, stats, tr, _ => ⟨st, stats, tr, rfl, by simp⟩
  | e :: events, i, st, stats, tr, hnd => by
    have hnd2 : (e.uid :: events.map Event.uid).Nodup := by simpa using hnd
    have hnd' : (events.map Event.uid).Nodup := (List.nodup_cons.mp hnd2).2
    have hnotin : e.uid ∉ events.map Event.uid := (List.nodup_cons.mp hnd2).1
    obtain ⟨tid, htid⟩ : ∃ tid, (oracle i).createResult = some tid := by
      cases h : (oracle i).createResult with
      | none => exact absurd h (hcr i)
      | some tid => exact ⟨tid, rfl⟩
    -- establish: after one step, the processed event's entry holds its hash
    have step : ∃ st₁ stats₁ tr₁,
        eventStep (oracle i) now e st stats tr = Except.ok (st₁, stats₁, tr₁) ∧
        ∃ en, List.lookup e.uid st₁.synced_events = some en ∧
          en.event_hash = compute_event_hash e := by
      cases hlk : List.lookup e.uid st.synced_events with
      | none =>
        refine ⟨_, _, _, by rw [eventStep_create_of_none hlk,
          createBranch_ok htid], ?_⟩
        exact ⟨_, lookup_setKey_self st.synced_events e.uid _, rfl⟩
      | some info =>
        by_cases hhash : info.event_hash = compute_event_hash e
        · exact ⟨_, _, _, eventStep_skip hlk hhash, info, hlk, hhash⟩
        · cases hex : (oracle i).existsResult with
          | true =>
            refine ⟨_, _, _, eventStep_update hlk hhash hex (hup i), ?_⟩
            exact ⟨_, lookup_setKey_self st.synced_events e.uid _, rfl⟩
          | false =>
            refine ⟨_, _, _, by rw [eventStep_create_of_stale hlk hhash hex,
              createBranch_ok htid], ?_⟩
            exact ⟨_, lookup_setKey_self st.synced_events e.uid _, rfl⟩
    obtain ⟨st₁, stats₁, tr₁, hstep, en, hlk₁, hhash₁⟩ := step
    obtain ⟨st', stats', tr', hrun, hall⟩ :=
      runEvents_success oracle now hup hcr events (i + 1) st₁ stats₁ tr₁ hnd'
    refine ⟨st', stats', tr', by rw [runEvents, hstep]; exact hrun, ?_⟩
    intro e' he'
    rcases List.mem_cons.mp he' with rfl | he'
    · obtain ⟨hpre, _, _⟩ :=
        runEvents_preserve oracle now e'.uid events (i + 1) st₁ stats₁ tr₁
          st' stats' tr' hnotin hrun
      exact ⟨en, hpre ▸ hlk₁, hhash₁⟩
    · exact hall e' he'

theorem runEvents_fresh (oracle : Nat → EventBehavior) (now : Int) :
    ∀ (events : List Event) (i : Nat) (st : Ledger) (stats : Stats)
      (tr : List Call),
      (events.map Event.uid).Nodup →
      (∀ e ∈ events, List.lookup e.uid st.synced_events = none) →
      ∃ st' stats' tr',
        runEvents oracle now events i (st, stats, tr) =
          Except.ok (st', stats', tr') ∧
        countCreate tr' = countCreate tr + events.length ∧
        countUpdate tr' = countUpdate tr
  | [], i, st, stats, tr, _, _ => ⟨st, stats, tr, rfl, by simp, rfl⟩
  | e :: events, i, st, stats, tr, hnd, hfresh => by
    have hnd2 : (e.uid :: events.map Event.uid).Nodup := by simpa using hnd
    have hnd' : (events.map Event.uid).Nodup := (List.nodup_cons.mp hnd2).2
    have hnotin : e.uid ∉ events.map Event.uid := (List.nodup_cons.mp hnd2).1
    have hlk : List.lookup e.uid st.synced_events = none :=
      hfresh e (List.mem_cons_self e events)
    cases hcr : (oracle i).createResult with
    | none =>
      have hfresh' : ∀ e' ∈ events,
          List.lookup e'.uid st.synced_events = none :=
        fun e' he' => hfresh e' (List.mem_cons_of_mem e he')
      obtain ⟨st', stats', tr', hrun, hcc, hcu⟩ :=
        runEvents_fresh oracle now events (i + 1) st stats
          (tr ++ [Call.createTask e.uid]) hnd' hfresh'
      refine ⟨st', stats', tr', ?_, ?_, ?_⟩
      · rw [runEvents, eventStep_create_of_none hlk, createBranch_fail hcr]
        exact hrun
      · rw [hcc, countCreate_append]
        simp [countCreate, List.length_cons]
        omega
      · rw [hcu, countUpdate_append]
        simp [countUpdate]
    | some tid =>
      have hfresh' : ∀ e' ∈ events, List.lookup e'.uid
          (mark_synced st e.uid tid (compute_event_hash e)
            e.due_date now).synced_events = none := by
        intro e' he'
        have hne : e'.uid ≠ e.uid := by
          intro habs
          exact hnotin (habs ▸ List.mem_map_of_mem Event.uid he')
        show List.lookup e'.uid
          (setKey st.synced_events e.uid _) = none
        rw [lookup_setKey_ne st.synced_events _ hne]
        exact hfresh e' (List.mem_cons_of_mem e he')
      obtain ⟨st', stats', tr', hrun, hcc, hcu⟩ :=
        runEvents_fresh oracle now events (i + 1)
          (mark_synced st e.uid tid (compute_event_hash e) e.due_date now)
          { stats with created := stats.created + 1 }
          (tr ++ Call.createTask e.uid ::
            (if 0 < REMINDER_DAYS_BEFORE ∧
                now < e.due_datetime - 86400 * REMINDER_DAYS_BEFORE then
              [Call.addReminder e.uid] else [])) hnd' hfresh'
      refine ⟨st', stats', tr', ?_, ?_, ?_⟩
      · rw [runEvents, eventStep_create_of_none hlk, createBranch_ok hcr]
        exact hrun
      · rw [hcc, countCreate_append]
        by_cases hrem : 0 < REMINDER_DAYS_BEFORE ∧
            now < e.due_datetime - 86400 * REMINDER_DAYS_BEFORE
        · rw [if_pos hrem]
          simp [countCreate, List.length_cons]
          omega
        · rw [if_neg hrem]
          simp [countCreate, List.length_cons]
          omega
      · rw [hcu, countUpdate_append]
        by_cases hrem : 0 < REMINDER_DAYS_BEFORE ∧
            now < e.due_datetime - 86400 * REMINDER_DAYS_BEFORE
        · rw [if_pos hrem]
          simp [countUpdate]
        · rw [if_neg hrem]
          simp [countUpdate]

theorem runEvents_nodup (oracle : Nat → EventBehavior) (now : Int) :
    ∀ (events : List Event) (i : Nat) (st : Ledger) (stats : Stats)
      (tr : List Call) (st' : Ledger) (stats' : Stats) (tr' : List Call),
      keysNodup st →
      runEvents oracle now events i (st, stats, tr) =
        Except.ok (st', stats', tr') →
      keysNodup st'
  | [], i, st, stats, tr, st', stats', tr', hnd, hrun => by
    cases hrun
    exact hnd
  | e :: events, i, st, stats, tr, st', stats', tr', hnd, hrun => by
    rcases eventStep_shape (oracle i) now e st stats tr with herr | ⟨st₁, stats₁, ext₁, hok, _, hsy, _⟩
    · rw [runEvents, herr] at hrun
      exact absurd hrun (by simp)
    · rw [runEvents, hok] at hrun
      have hnd₁ : keysNodup st₁ := by
        rcases hsy with hsy | ⟨v, hsy⟩
        · show (st₁.synced_events.map Prod.fst).Nodup
          rw [hsy]
          exact hnd
        · show (st₁.synced_events.map Prod.fst).Nodup
          rw [hsy]
          exact nodup_keys_setKey e.uid v hnd
      exact runEvents_nodup oracle now events (i + 1) st₁ stats₁
        (tr ++ ext₁) st' stats' tr' hnd₁ hrun

/-! ### Run-shape equations -/

theorem sync_nil (file : Option (Except Unit Ledger))
    (dOracle : String → DisBehavior) (oracle : Nat → EventBehavior)
    (now : Int) :
    sync_canvas_to_todoist file [] dOracle oracle now =
      Except.ok (SyncState.save (SyncState.load file) now, Stats.zero, []) :=
  rfl

theorem sync_cons (file : Option (Except Unit Ledger)) (e : Event)
    (evs : List Event) (dOracle : String → DisBehavior)
    (oracle : Nat → EventBehavior) (now : Int) :
    sync_canvas_to_todoist file (e :: evs) dOracle oracle now =
      match runEvents oracle now (e :: evs) 0
        (disappearancePass dOracle now ((e :: evs).map Event.uid)
          (SyncState.load file)) with
      | Except.error err => Except.error err
      | Except.ok (st, stats, tr) =>
        Except.ok (SyncState.save st now, stats, tr) :=
  rfl

/-! ### Digest sensitivity lemmas -/

theorem hashContent_inj (a₁ a₂ b₁ b₂ c₁ c₂ : String)
    (h : a₁ ++ "|" ++ b₁ ++ "|" ++ c₁ = a₂ ++ "|" ++ b₂ ++ "|" ++ c₂) :
    ((b₁ = b₂ ∧ c₁ = c₂) → a₁ = a₂) ∧
    ((a₁ = a₂ ∧ c₁ = c₂) → b₁ = b₂) ∧
    ((a₁ = a₂ ∧ b₁ = b₂) → c₁ = c₂) := by
  have hd := congrArg String.data h
  simp only [String.data_append, List.append_assoc,
    List.singleton_append] at hd
  refine ⟨?_, ?_, ?_⟩
  · rintro ⟨rfl, rfl⟩
    exact String.ext (List.append_cancel_right hd)
  · rintro ⟨rfl, rfl⟩
    have h₁ := List.append_cancel_left hd
    have h₃ : b₁.data ++ '|' :: c₁.data = b₂.data ++ '|' :: c₁.data := by
      injection h₁
    exact String.ext (List.append_cancel_right h₃)
  · rintro ⟨rfl, rfl⟩
    have h₁ := List.append_cancel_left hd
    have h₃ : b₁.data ++ '|' :: c₁.data = b₁.data ++ '|' :: c₂.data := by
      injection h₁
    have h₄ := List.append_cancel_left h₃
    injection h₄ with _ h₅
    exact String.ext h₅

theorem hash_changes (u₁ u₂ : String) (s₁ s₂ desc₁ desc₂ : String)
    (due₁ due₂ : Int)
    (hch : (s₁ ≠ s₂ ∧ due₁ = due₂ ∧ desc₁ = desc₂) ∨
           (s₁ = s₂ ∧ due₁ ≠ due₂ ∧ desc₁ = desc₂) ∨
           (s₁ = s₂ ∧ due₁ = due₂ ∧ desc₁ ≠ desc₂)) :
    compute_event_hash (mkEvent u₁ s₁ desc₁ due₁) ≠
      compute_event_hash (mkEvent u₂ s₂ desc₂ due₂) := by
  intro h
  have h' : s₁ ++ "|" ++ isoformat due₁ ++ "|" ++ desc₁ =
      s₂ ++ "|" ++ isoformat due₂ ++ "|" ++ desc₂ := h
  have hinj := hashContent_inj s₁ s₂ (isoformat due₁) (isoformat due₂)
    desc₁ desc₂ h'
  rcases hch with ⟨hne, rfl, rfl⟩ | ⟨rfl, hne, rfl⟩ | ⟨rfl, rfl, hne⟩
  · exact hne (hinj.1 ⟨rfl, rfl⟩)
  · exact hne (isoformat_injective (hinj.2.1 ⟨rfl, rfl⟩))
  · exact hne (hinj.2.2 ⟨rfl, rfl⟩)

/-! ### Claim theorems -/

/-- C7: for every due timestamp, the priority tier is computed from the
whole number of days until due by testing the thresholds `1 ↦ 4`, `3 ↦ 3`,
`7 ↦ 2` in ascending order of day-count with an inclusive `≤` (a day-count
exactly on a threshold gets that threshold's tier, not the next lower
one), and the default lowest tier `1` is assigned when no threshold
matches. -/
theorem C7_priority_inclusive_ascending (due now : Int) :
    (daysBetween due now ≤ 1 → calculate_priority due now = 4) ∧
    (1 < daysBetween due now → daysBetween due now ≤ 3 →
      calculate_priority due now = 3) ∧
    (3 < daysBetween due now → daysBetween due now ≤ 7 →
      calculate_priority due now = 2) ∧
    (7 < daysBetween due now → calculate_priority due now = 1) := by
  simp only [calculate_priority, PRIORITY_THRESHOLDS, priorityScan,
    DEFAULT_PRIORITY]
  refine ⟨fun h1 => ?_, fun h1 h2 => ?_, fun h1 h2 => ?_, fun h1 => ?_⟩
  · rw [if_pos h1]
  · rw [if_neg (by omega), if_pos h2]
  · rw [if_neg (by omega), if_neg (by omega), if_pos h2]
  · rw [if_neg (by omega), if_neg (by omega), if_neg (by omega)]

/-- Witness for C7 at the boundary: an event due in exactly 3 whole days
gets tier 3 (the tier of the 3-day threshold), not the next lower tier. -/
theorem C7_priority_inclusive_ascending_witness :
    calculate_priority 259200 0 = 3 :=
  (C7_priority_inclusive_ascending 259200 0).2.1 (by decide) (by decide)

/-- C6 counterexample: on the summary `"Math – HW"` (with a genuine en
dash), rule (3) of the claim — text preceding an em/en-dash separator —
yields `"Math"`, but the code returns `"General"`: the code's third
separator literal is the mojibake byte sequence `' â€“ '`, not an actual
em/en dash, so a true en dash never matches. -/
theorem C6_course_resolution_counterexample :
    parse_course_name "Math – HW" "" = "General" ∧
    parse_course_name_spec "Math – HW" "" = "Math" ∧
    parse_course_name "Math – HW" "" ≠ parse_course_name_spec "Math – HW" "" := by
  refine ⟨by decide, by decide, by decide⟩

/-- C6 (amended): the course label is resolved by the first matching rule
in this fixed order: (1) a bracketed suffix in the summary; (2) the
department-code pattern (2-4 uppercase letters, optional whitespace,
3 digits, optional trailing letter) searched in the concatenation
`summary + " " + description` (so it may match across the field
boundary); (3) the summary text preceding the first occurrence of the
first separator present among `':'`, `' - '` and the literal mojibake
sequence `' â€“ '`, tried in that order (not the earliest occurrence
among them, and not a genuine em/en dash); (4) the fallback constant
`"General"`. -/
theorem C6_course_resolution_cascade (summary description : String) :
    parse_course_name summary description =
      (firstRule summary description courseRules).getD "General" := by
  cases hbr : bracketGroup summary.data with
  | some g =>
    simp [parse_course_name, firstRule, courseRules, bracketRule, hbr]
  | none =>
    cases hcs : courseSearch (summary.data ++ ' ' :: description.data) with
    | some m =>
      simp [parse_course_name, firstRule, courseRules, bracketRule,
        deptCodeRule, hbr, hcs]
    | none =>
      cases hc1 : beforeFirst [':'] summary.data with
      | some pre =>
        simp [parse_course_name, firstRule, courseRules, bracketRule,
          deptCodeRule, separatorRule, hbr, hcs, hc1]
      | none =>
        cases hc2 : beforeFirst [' ', '-', ' '] summary.data with
        | some pre =>
          simp [parse_course_name, firstRule, courseRules, bracketRule,
            deptCodeRule, separatorRule, hbr, hcs, hc1, hc2]
        | none =>
          cases hc3 : beforeFirst mojibakeSep summary.data with
          | some pre =>
            simp [parse_course_name, firstRule, courseRules, bracketRule,
              deptCodeRule, separatorRule, hbr, hcs, hc1, hc2, hc3]
          | none =>
            simp [parse_course_name, firstRule, courseRules, bracketRule,
              deptCodeRule, separatorRule, hbr, hcs, hc1, hc2, hc3]

/-- C8: if the state file is missing or its contents are unparseable,
loading yields the empty ledger (no synced events, no last-sync
timestamp) rather than a fatal error, and the run proceeds to completion,
issuing a create call for every event in the current event list (event
uids are pairwise distinct per the event source's model invariant). -/
theorem C8_corrupt_ledger_recovery (file : Option (Except Unit Ledger))
    (events : List Event) (dOracle : String → DisBehavior)
    (oracle : Nat → EventBehavior) (now : Int)
    (hfile : file = none ∨ ∃ u, file = some (Except.error u))
    (hnd : (events.map Event.uid).Nodup) :
    SyncState.load file = emptyLedger ∧
    ∃ st' stats' tr',
      sync_canvas_to_todoist file events dOracle oracle now =
        Except.ok (st', stats', tr') ∧
      countCreate tr' = events.length := by
  have hload : SyncState.load file = emptyLedger := by
    rcases hfile with rfl | ⟨u, rfl⟩ <;> rfl
  refine ⟨hload, ?_⟩
  cases events with
  | nil =>
    exact ⟨SyncState.save (SyncState.load file) now, Stats.zero, [],
      sync_nil file dOracle oracle now, rfl⟩
  | cons e evs =>
    have hpass : disappearancePass dOracle now ((e :: evs).map Event.uid)
        (SyncState.load file) = (emptyLedger, Stats.zero, []) := by
      rw [hload]
      rfl
    obtain ⟨st', stats', tr', hrun, hcc, _⟩ :=
      runEvents_fresh oracle now (e :: evs) 0 emptyLedger Stats.zero [] hnd
        (fun _ _ => rfl)
    refine ⟨SyncState.save st' now, stats', tr', ?_, ?_⟩
    · rw [sync_cons, hpass, hrun]
    · rw [hcc]
      simp [countCreate]

/-- Witness for C8: with a missing state file and one event, the load
falls back to the empty ledger and the run completes with exactly one
create call. -/
theorem C8_corrupt_ledger_recovery_witness :
    SyncState.load none = emptyLedger ∧
    ∃ st' stats' tr',
      sync_canvas_to_todoist none [mkEvent "u1" "HW 1" "" 200000]
        (fun _ => ⟨true, true⟩) (fun _ => ⟨true, true, some "t1"⟩) 0 =
        Except.ok (st', stats', tr') ∧
      countCreate tr' = 1 :=
  C8_corrupt_ledger_recovery none [mkEvent "u1" "HW 1" "" 200000]
    (fun _ => ⟨true, true⟩) (fun _ => ⟨true, true, some "t1"⟩) 0
    (Or.inl rfl) (by decide)

/-- C9: after every ledger operation — load of a well-formed or absent or
corrupt file, `mark_synced`, `mark_completed` — and after every completed
run, the ledger holds at most one entry per `event_uid` (its key list has
no duplicates), so each event identity maps to at most one task identity
at any time. -/
theorem C9_at_most_one_entry_per_uid :
    (∀ file, ledgerFileWF file → keysNodup (SyncState.load file)) ∧
    (∀ (l : Ledger) (uid tid h due : String) (now : Int), keysNodup l →
      keysNodup (mark_synced l uid tid h due now)) ∧
    (∀ (l : Ledger) (uid : String), keysNodup l →
      keysNodup (mark_completed l uid)) ∧
    (∀ file events dOracle oracle now st' stats' tr', ledgerFileWF file →
      sync_canvas_to_todoist file events dOracle oracle now =
        Except.ok (st', stats', tr') →
      keysNodup st') := by
  have hload : ∀ file, ledgerFileWF file → keysNodup (SyncState.load file) := by
    intro file hwf
    match file with
    | none => exact List.nodup_nil
    | some (Except.error u) => exact List.nodup_nil
    | some (Except.ok l) => exact hwf
  refine ⟨hload, ?_, ?_, ?_⟩
  · intro l uid tid h due now hnd
    exact nodup_keys_setKey uid _ hnd
  · intro l uid hnd
    exact nodup_keys_filter _ hnd
  · intro file events dOracle oracle now st' stats' tr' hwf hrun
    cases events with
    | nil =>
      rw [sync_nil] at hrun
      cases hrun
      exact hload file hwf
    | cons e evs =>
      rw [sync_cons] at hrun
      rcases hpass : disappearancePass dOracle now ((e :: evs).map Event.uid)
          (SyncState.load file) with ⟨st₀, stats₀, tr₀⟩
      have hnd₀ : keysNodup st₀ := by
        have := disFold_nodup dOracle now ((e :: evs).map Event.uid)
          ((SyncState.load file).synced_events.map Prod.fst)
          (SyncState.load file) Stats.zero [] (hload file hwf)
        rw [show ((SyncState.load file).synced_events.map Prod.fst).foldl
            (disStep dOracle now ((e :: evs).map Event.uid))
            (SyncState.load file, Stats.zero, []) =
          disappearancePass dOracle now ((e :: evs).map Event.uid)
            (SyncState.load file) from rfl, hpass] at this
        exact this
      rw [hpass] at hrun
      cases hre : runEvents oracle now (e :: evs) 0 (st₀, stats₀, tr₀) with
      | error err =>
        rw [hre] at hrun
        exact absurd hrun (by simp)
      | ok acc =>
        obtain ⟨st₁, stats₁, tr₁⟩ := acc
        rw [hre] at hrun
        have hnd₁ := runEvents_nodup oracle now (e :: evs) 0 st₀ stats₀ tr₀
          st₁ stats₁ tr₁ hnd₀ hre
        simp only at hrun
        cases hrun
        exact hnd₁

/-- Witness for C9: a concrete load, a `mark_synced` over an existing key,
a `mark_completed`, and a completed concrete run all leave the ledger with
pairwise-distinct keys. -/
theorem C9_at_most_one_entry_per_uid_witness :
    keysNodup (SyncState.load (some (Except.ok
      ⟨[("a", ⟨"t1", "h1", "s", none⟩)], none⟩))) ∧
    keysNodup (mark_synced ⟨[("a", ⟨"t1", "h1", "s", none⟩)], none⟩
      "a" "t2" "h2" "d" 0) ∧
    keysNodup (mark_completed ⟨[("a", ⟨"t1", "h1", "s", none⟩)], none⟩ "a") :=
  ⟨C9_at_most_one_entry_per_uid.1 _ (by simp [ledgerFileWF, keysNodup]),
   C9_at_most_one_entry_per_uid.2.1 _ "a" "t2" "h2" "d" 0 (by simp [keysNodup]),
   C9_at_most_one_entry_per_uid.2.2.1 _ "a" (by simp [keysNodup])⟩

/-- Shared helper: a ledger entry that the disappearance pass treats as
inert (uid absent from the event list; snapshot missing, falsy,
unparseable, or not strictly future) survives a completed run unchanged,
and no remote call tagged with its uid is ever issued. -/
theorem sync_inert_entry_preserved (file : Option (Except Unit Ledger))
    (events : List Event) (dOracle : String → DisBehavior)
    (oracle : Nat → EventBehavior) (now : Int) (uid : String) (en : Entry)
    (st' : Ledger) (stats' : Stats) (tr' : List Call)
    (hmem : uid ∉ events.map Event.uid)
    (hlk : List.lookup uid (SyncState.load file).synced_events = some en)
    (hin : disInert now en)
    (hrun : sync_canvas_to_todoist file events dOracle oracle now =
      Except.ok (st', stats', tr')) :
    List.lookup uid st'.synced_events = some en ∧
    ∀ c ∈ tr', Call.uidOf c ≠ uid := by
  cases events with
  | nil =>
    rw [sync_nil] at hrun
    injection hrun with hrun
    cases hrun
    exact ⟨hlk, by simp⟩
  | cons e evs =>
    rw [sync_cons] at hrun
    rcases hpass : disappearancePass dOracle now ((e :: evs).map Event.uid)
        (SyncState.load file) with ⟨st₀, stats₀, tr₀⟩
    obtain ⟨stA, statsA, extA, heqA, hlkA, htagA⟩ :=
      disFold_inert_preserve dOracle now ((e :: evs).map Event.uid) uid en hin
        ((SyncState.load file).synced_events.map Prod.fst)
        (SyncState.load file) Stats.zero [] hlk
    rw [show ((SyncState.load file).synced_events.map Prod.fst).foldl
        (disStep dOracle now ((e :: evs).map Event.uid))
        (SyncState.load file, Stats.zero, []) =
      disappearancePass dOracle now ((e :: evs).map Event.uid)
        (SyncState.load file) from rfl, hpass] at heqA
    injection heqA with h1 h2
    injection h2 with h2 h3
    subst h1
    subst h3
    rw [hpass] at hrun
    cases hre : runEvents oracle now (e :: evs) 0 (st₀, stats₀, tr₀) with
    | error err =>
      rw [hre] at hrun
      exact absurd hrun (by simp)
    | ok acc =>
      obtain ⟨st₁, stats₁, tr₁⟩ := acc
      obtain ⟨hpre, hls, ext₁, hext₁, htag₁⟩ :=
        runEvents_preserve oracle now uid (e :: evs) 0 st₀ stats₀ tr₀
          st₁ stats₁ tr₁ hmem hre
      rw [hre] at hrun
      simp only at hrun
      injection hrun with hrun
      injection hrun with h1 h2
      injection h2 with h2 h3
      subst h2
      subst h3
      refine ⟨?_, ?_⟩
      · have : st'.synced_events = st₁.synced_events := by rw [← h1]; rfl
        rw [this, hpre, hlkA]
      · intro c hc
        rw [hext₁] at hc
        rcases List.mem_append.mp hc with hc | hc
        · exact htagA c (by simpa using hc)
        · exact htag₁ c hc

/-- C1 counterexample: a failure raised while **updating** an event's task
is not caught by anything in `sync_canvas_to_todoist` (the
`try`/`except` covers only the create path, sync.py lines 487-507, while
the update path at lines 466-479 is bare), so the run aborts with an
uncaught exception instead of terminating successfully with a summary:
here a one-event run whose stored digest is stale and whose remote
update raises returns the error outcome. -/
theorem C1_update_failure_aborts_counterexample :
    sync_canvas_to_todoist
      (some (Except.ok ⟨[("u1", ⟨"t1", "stale", "s", some "0"⟩)], none⟩))
      [mkEvent "u1" "A" "" 100]
      (fun _ => ⟨true, true⟩) (fun _ => ⟨true, false, some "t2"⟩) 0 =
      Except.error () := rfl

/-- C1 (amended): for every run in which no update call fails, the run
terminates successfully (so per-event create failures never abort it);
and whenever the create branch is taken (no ledger entry, or a stale
entry whose remote task is gone) and the create call raises, the
exception is caught and the step completes with the ledger and the
counters untouched — only the attempted create call is appended to the
trace.  (A failing update, by contrast, aborts the run: see the
counterexample.) -/
theorem C1_create_failure_recovery (file : Option (Except Unit Ledger))
    (events : List Event) (dOracle : String → DisBehavior)
    (oracle : Nat → EventBehavior) (now : Int)
    (hup : ∀ i, (oracle i).updateOk = true) :
    (∃ acc, sync_canvas_to_todoist file events dOracle oracle now =
      Except.ok acc) ∧
    (∀ (beh : EventBehavior) (e : Event) (st : Ledger) (stats : Stats)
      (tr : List Call),
      beh.createResult = none →
      (List.lookup e.uid st.synced_events = none ∨
        (∃ info, List.lookup e.uid st.synced_events = some info ∧
          info.event_hash ≠ compute_event_hash e ∧
          beh.existsResult = false)) →
      ∃ ext, eventStep beh now e st stats tr =
        Except.ok (st, stats, tr ++ ext)) := by
  constructor
  · cases events with
    | nil => exact ⟨_, sync_nil file dOracle oracle now⟩
    | cons e evs =>
      rcases hpass : disappearancePass dOracle now ((e :: evs).map Event.uid)
          (SyncState.load file) with ⟨st₀, stats₀, tr₀⟩
      obtain ⟨⟨st₁, stats₁, tr₁⟩, hre⟩ :=
        runEvents_ok oracle now hup (e :: evs) 0 st₀ stats₀ tr₀
      refine ⟨(SyncState.save st₁ now, stats₁, tr₁), ?_⟩
      rw [sync_cons, hpass, hre]
  · intro beh e st stats tr hcr hbranch
    rcases hbranch with hlk | ⟨info, hlk, hhash, hex⟩
    · exact ⟨[Call.createTask e.uid],
        by rw [eventStep_create_of_none hlk, createBranch_fail hcr]⟩
    · exact ⟨[Call.taskExists e.uid info.todoist_task_id,
        Call.createTask e.uid],
        by rw [eventStep_create_of_stale hlk hhash hex,
          createBranch_fail hcr, List.append_assoc]; rfl⟩

/-- Witness for C1: a concrete one-event run with a failing create
terminates successfully, and the concrete failing create step leaves
ledger and counters untouched. -/
theorem C1_create_failure_recovery_witness :
    (∃ acc, sync_canvas_to_todoist none [mkEvent "u1" "A" "" 100]
      (fun _ => ⟨true, true⟩) (fun _ => ⟨true, true, none⟩) 0 =
      Except.ok acc) ∧
    (∃ ext, eventStep ⟨true, true, none⟩ 0 (mkEvent "u1" "A" "" 100)
      emptyLedger Stats.zero [] =
      Except.ok (emptyLedger, Stats.zero, [] ++ ext)) :=
  have h := C1_create_failure_recovery none [mkEvent "u1" "A" "" 100]
    (fun _ => ⟨true, true⟩) (fun _ => ⟨true, true, none⟩) 0 (fun _ => rfl)
  ⟨h.1, h.2 ⟨true, true, none⟩ (mkEvent "u1" "A" "" 100) emptyLedger
    Stats.zero [] rfl (Or.inl rfl)⟩

/-- C3 counterexample: a disappeared entry whose snapshot (due 5) is at
or before now (10) is **not** removed from the ledger — the run completes
and the entry is still there, unlike the future-due case, which removes
its entry.  The claim's "removed under the same removal policy as the
future-due case" is false: `mark_completed` sits inside the
`due_date > now` branch only (sync.py lines 442-448). -/
theorem C3_pastdue_entry_not_removed_counterexample :
    (∃ stats' tr',
      sync_canvas_to_todoist
        (some (Except.ok ⟨[("gone", ⟨"t9", "h9", "s", some (isoformat 5)⟩)],
          none⟩))
        [mkEvent "u2" "B" "" 100] (fun _ => ⟨true, true⟩)
        (fun _ => ⟨true, true, some "t1"⟩) 10 =
        Except.ok
          (⟨[("gone", ⟨"t9", "h9", "s", some (isoformat 5)⟩),
             ("u2", ⟨"t1", compute_event_hash (mkEvent "u2" "B" "" 100),
               isoformat 10, some (isoformat 100)⟩)], some (isoformat 10)⟩,
           stats', tr')) ∧
    (∃ L stats' tr',
      sync_canvas_to_todoist
        (some (Except.ok ⟨[("gone", ⟨"t9", "h9", "s", some (isoformat 50)⟩)],
          none⟩))
        [mkEvent "u2" "B" "" 100] (fun _ => ⟨true, true⟩)
        (fun _ => ⟨true, true, some "t1"⟩) 10 =
        Except.ok (L, stats', tr') ∧
      List.lookup "gone" L.synced_events = none) :=
  ⟨⟨_, _, rfl⟩, ⟨_, _, _, rfl, rfl⟩⟩

/-- C3 (amended): for every ledger entry whose `event_uid` is absent from
the current run's event list and whose recorded due-date snapshot parses
and is at or before now, the disappearance pass makes no completion
attempt (indeed, no remote call tagged with that uid at all) and — unlike
the future-due case — leaves the entry in the ledger unchanged, so the
entry is retained and re-examined on every subsequent run. -/
theorem C3_pastdue_disappearance_no_attempt (file : Option (Except Unit Ledger))
    (events : List Event) (dOracle : String → DisBehavior)
    (oracle : Nat → EventBehavior) (now : Int) (uid : String) (en : Entry)
    (st' : Ledger) (stats' : Stats) (tr' : List Call)
    (hmem : uid ∉ events.map Event.uid)
    (hlk : List.lookup uid (SyncState.load file).synced_events = some en)
    (hpast : ∃ s d, en.due_date = some s ∧ fromisoformat s = some d ∧ d ≤ now)
    (hrun : sync_canvas_to_todoist file events dOracle oracle now =
      Except.ok (st', stats', tr')) :
    List.lookup uid st'.synced_events = some en ∧
    ∀ c ∈ tr', Call.uidOf c ≠ uid := by
  obtain ⟨s, dv, hdd, hp, hled⟩ := hpast
  exact sync_inert_entry_preserved file events dOracle oracle now uid en
    st' stats' tr' hmem hlk
    (Or.inr ⟨s, hdd, Or.inr (Or.inr ⟨dv, hp, hled⟩)⟩) hrun

/-- Witness for C3: the concrete past-due run above keeps the entry and
issues no call tagged `"gone"`. -/
theorem C3_pastdue_disappearance_no_attempt_witness :
    List.lookup "gone"
      (⟨[("gone", ⟨"t9", "h9", "s", some (isoformat 5)⟩),
         ("u2", ⟨"t1", compute_event_hash (mkEvent "u2" "B" "" 100),
           isoformat 10, some (isoformat 100)⟩)], some (isoformat 10)⟩ :
        Ledger).synced_events =
      some ⟨"t9", "h9", "s", some (isoformat 5)⟩ ∧
    ∀ c ∈ [Call.createTask "u2"], Call.uidOf c ≠ "gone" :=
  C3_pastdue_disappearance_no_attempt
    (some (Except.ok ⟨[("gone", ⟨"t9", "h9", "s", some (isoformat 5)⟩)],
      none⟩))
    [mkEvent "u2" "B" "" 100] (fun _ => ⟨true, true⟩)
    (fun _ => ⟨true, true, some "t1"⟩) 10 "gone"
    ⟨"t9", "h9", "s", some (isoformat 5)⟩ _ _ _
    (by decide) rfl ⟨isoformat 5, 5, rfl, by decide, by decide⟩ rfl

/-- C10: for every ledger entry whose `event_uid` is absent from the
current run's event list but whose stored due-date field is missing
(`None`) or not a parseable timestamp, the disappearance pass makes no
Task Store call for that entry and leaves it in the ledger unchanged, so
such an entry is retained indefinitely across runs. -/
theorem C10_bad_snapshot_retained (file : Option (Except Unit Ledger))
    (events : List Event) (dOracle : String → DisBehavior)
    (oracle : Nat → EventBehavior) (now : Int) (uid : String) (en : Entry)
    (st' : Ledger) (stats' : Stats) (tr' : List Call)
    (hmem : uid ∉ events.map Event.uid)
    (hlk : List.lookup uid (SyncState.load file).synced_events = some en)
    (hbad : en.due_date = none ∨
      ∃ s, en.due_date = some s ∧ fromisoformat s = none)
    (hrun : sync_canvas_to_todoist file events dOracle oracle now =
      Except.ok (st', stats', tr')) :
    List.lookup uid st'.synced_events = some en ∧
    ∀ c ∈ tr', Call.uidOf c ≠ uid := by
  refine sync_inert_entry_preserved file events dOracle oracle now uid en
    st' stats' tr' hmem hlk ?_ hrun
  rcases hbad with hdd | ⟨s, hdd, hp⟩
  · exact Or.inl hdd
  · exact Or.inr ⟨s, hdd, Or.inr (Or.inl hp)⟩

/-- Witness for C10: the concrete run with the unparseable snapshot
`"garbage"` keeps the entry and issues no call tagged `"gone"`. -/
theorem C10_bad_snapshot_retained_witness :
    List.lookup "gone"
      (⟨[("gone", ⟨"t9", "h9", "s", some "garbage"⟩),
         ("u2", ⟨"t1", compute_event_hash (mkEvent "u2" "B" "" 100),
           isoformat 10, some (isoformat 100)⟩)], some (isoformat 10)⟩ :
        Ledger).synced_events =
      some ⟨"t9", "h9", "s", some "garbage"⟩ ∧
    ∀ c ∈ [Call.createTask "u2"], Call.uidOf c ≠ "gone" :=
  C10_bad_snapshot_retained
    (some (Except.ok ⟨[("gone", ⟨"t9", "h9", "s", some "garbage"⟩)], none⟩))
    [mkEvent "u2" "B" "" 100] (fun _ => ⟨true, true⟩)
    (fun _ => ⟨true, true, some "t1"⟩) 10 "gone"
    ⟨"t9", "h9", "s", some "garbage"⟩ _ _ _
    (by decide) rfl (Or.inr ⟨"garbage", rfl, by decide⟩) rfl

/-- C4 counterexample: with an **empty** current event list, the code
returns early (sync.py lines 420-423) and the disappearance pass never
runs, so a ledger entry with a still-future snapshot gets no existence
check, no completion attempt, and is not removed — contradicting the
claim as stated, which asserts this handling for every such entry of
"the current run's event list" without excluding the empty list. -/
theorem C4_empty_feed_skips_disappearance_counterexample :
    sync_canvas_to_todoist
      (some (Except.ok ⟨[("gone", ⟨"t9", "h9", "s", some (isoformat 50)⟩)],
        none⟩))
      [] (fun _ => ⟨true, true⟩) (fun _ => ⟨true, true, some "t1"⟩) 10 =
      Except.ok
        (⟨[("gone", ⟨"t9", "h9", "s", some (isoformat 50)⟩)],
          some (isoformat 10)⟩, Stats.zero, []) := rfl

/-- C4 (amended): on every run whose event list is nonempty, for every
ledger entry whose `event_uid` is absent from the event list and whose
recorded snapshot parses to a strictly future time, the disappearance
pass issues an existence check for the entry's task, attempts completion
exactly when that check answers true, and removes the entry from the
ledger unconditionally — also when the existence check answers false
(`task_exists` returns false on its own failures) or when the completion
call fails. -/
theorem C4_future_disappearance_removal (file : Option (Except Unit Ledger))
    (events : List Event) (dOracle : String → DisBehavior)
    (oracle : Nat → EventBehavior) (now : Int) (uid : String) (en : Entry)
    (st' : Ledger) (stats' : Stats) (tr' : List Call)
    (hne : events ≠ [])
    (hmem : uid ∉ events.map Event.uid)
    (hlk : List.lookup uid (SyncState.load file).synced_events = some en)
    (hfut : ∃ s d, en.due_date = some s ∧ fromisoformat s = some d ∧ now < d)
    (hrun : sync_canvas_to_todoist file events dOracle oracle now =
      Except.ok (st', stats', tr')) :
    List.lookup uid st'.synced_events = none ∧
    Call.taskExists uid en.todoist_task_id ∈ tr' ∧
    ((dOracle uid).existsResult = true →
      Call.completeTask uid en.todoist_task_id ∈ tr') ∧
    ((dOracle uid).existsResult = false →
      ∀ tid, Call.completeTask uid tid ∉ tr') := by
  obtain ⟨s, dv, hdd, hp, hlt⟩ := hfut
  cases events with
  | nil => exact absurd rfl hne
  | cons e evs =>
    rw [sync_cons] at hrun
    rcases hpass : disappearancePass dOracle now ((e :: evs).map Event.uid)
        (SyncState.load file) with ⟨st₀, stats₀, tr₀⟩
    obtain ⟨stA, statsA, extA, heqA, hnoneA, hteA, hcmA, hncmA⟩ :=
      disFold_ripe dOracle now ((e :: evs).map Event.uid) uid en s dv
        hmem hdd hp hlt
        ((SyncState.load file).synced_events.map Prod.fst)
        (SyncState.load file) Stats.zero [] hlk (mem_keys_of_lookup hlk)
    rw [show ((SyncState.load file).synced_events.map Prod.fst).foldl
        (disStep dOracle now ((e :: evs).map Event.uid))
        (SyncState.load file, Stats.zero, []) =
      disappearancePass dOracle now ((e :: evs).map Event.uid)
        (SyncState.load file) from rfl, hpass] at heqA
    injection heqA with h1 h2
    injection h2 with h2 h3
    subst h1
    subst h3
    rw [hpass] at hrun
    cases hre : runEvents oracle now (e :: evs) 0 (st₀, stats₀, tr₀) with
    | error err =>
      rw [hre] at hrun
      exact absurd hrun (by simp)
    | ok acc =>
      obtain ⟨st₁, stats₁, tr₁⟩ := acc
      obtain ⟨hpre, hls, ext₁, hext₁, htag₁⟩ :=
        runEvents_preserve oracle now uid (e :: evs) 0 st₀ stats₀ tr₀
          st₁ stats₁ tr₁ hmem hre
      rw [hre] at hrun
      simp only at hrun
      injection hrun with hrun
      injection hrun with h1 h2
      injection h2 with h2 h3
      subst h2
      subst h3
      have hsy : st'.synced_events = st₁.synced_events := by rw [← h1]; rfl
      refine ⟨?_, ?_, ?_, ?_⟩
      · rw [hsy, hpre, hnoneA]
      · rw [hext₁]
        exact List.mem_append.mpr (Or.inl (by simpa using hteA))
      · intro hx
        rw [hext₁]
        exact List.mem_append.mpr (Or.inl (by simpa using hcmA hx))
      · intro hx tid hmem'
        rw [hext₁] at hmem'
        rcases List.mem_append.mp hmem' with h | h
        · exact hncmA hx tid (by simpa using h)
        · have := htag₁ _ h
          simp [Call.uidOf] at this

/-- Witness for C4: the concrete future-due run issues the existence
check and the completion call for `"gone"` and removes its entry. -/
theorem C4_future_disappearance_removal_witness :
    List.lookup "gone"
      (⟨[("u2", ⟨"t1", compute_event_hash (mkEvent "u2" "B" "" 100),
          isoformat 10, some (isoformat 100)⟩)], some (isoformat 10)⟩ :
        Ledger).synced_events = none ∧
    Call.taskExists "gone" "t9" ∈
      [Call.taskExists "gone" "t9", Call.completeTask "gone" "t9",
       Call.createTask "u2"] ∧
    ((true : Bool) = true → Call.completeTask "gone" "t9" ∈
      [Call.taskExists "gone" "t9", Call.completeTask "gone" "t9",
       Call.createTask "u2"]) ∧
    ((true : Bool) = false → ∀ tid, Call.completeTask "gone" tid ∉
      [Call.taskExists "gone" "t9", Call.completeTask "gone" "t9",
       Call.createTask "u2"]) :=
  C4_future_disappearance_removal
    (some (Except.ok ⟨[("gone", ⟨"t9", "h9", "s", some (isoformat 50)⟩)],
      none⟩))
    [mkEvent "u2" "B" "" 100] (fun _ => ⟨true, true⟩)
    (fun _ => ⟨true, true, some "t1"⟩) 10 "gone"
    ⟨"t9", "h9", "s", some (isoformat 50)⟩ _ _ _
    (by decide) (by decide) rfl
    ⟨isoformat 50, 50, rfl, by decide, by decide⟩ rfl

/-- C2 counterexample: a first run can "complete" (zero exit, summary
logged) even though its only create call failed and was caught; the
resulting ledger is unchanged, so the second run on the same event list
issues another create call — not zero, and the event does not take the
Skip branch.  The claim's antecedent ("a reconciliation run completes")
is satisfied by such a run, so idempotence as stated fails. -/
theorem C2_failed_create_breaks_idempotence_counterexample :
    sync_canvas_to_todoist none [mkEvent "u1" "A" "" 100]
      (fun _ => ⟨true, true⟩) (fun _ => ⟨true, true, none⟩) 0 =
      Except.ok (⟨[], some (isoformat 0)⟩, Stats.zero,
        [Call.createTask "u1"]) ∧
    (∃ L2 s2 t2,
      sync_canvas_to_todoist (some (Except.ok ⟨[], some (isoformat 0)⟩))
        [mkEvent "u1" "A" "" 100]
        (fun _ => ⟨true, true⟩) (fun _ => ⟨true, true, none⟩) 0 =
        Except.ok (L2, s2, t2) ∧
      countCreate t2 = 1 ∧ s2.skipped = 0) :=
  ⟨rfl, ⟨_, _, _, rfl, rfl, rfl⟩⟩

/-- C2 (amended): if a reconciliation run completes on an event list with
pairwise-distinct uids and **every remote operation it attempted
succeeded** (creates returned a task id, updates did not raise), then a
second reconciliation run on the same event list starting from the
produced ledger issues zero task-create and zero task-update calls:
every event takes the Skip branch, which performs no remote call and
leaves the event's ledger entry untouched.  (Without the all-success
proviso the claim fails: see the counterexample.) -/
theorem C2_second_run_all_skip (file : Option (Except Unit Ledger))
    (events : List Event) (dOr₁ dOr₂ : String → DisBehavior)
    (or₁ or₂ : Nat → EventBehavior) (now₁ now₂ : Int)
    (L₁ : Ledger) (s₁ : Stats) (t₁ : List Call)
    (hnd : (events.map Event.uid).Nodup)
    (hup : ∀ i, (or₁ i).updateOk = true)
    (hcr : ∀ i, (or₁ i).createResult ≠ none)
    (hrun₁ : sync_canvas_to_todoist file events dOr₁ or₁ now₁ =
      Except.ok (L₁, s₁, t₁)) :
    ∃ L₂ s₂ t₂,
      sync_canvas_to_todoist (some (Except.ok L₁)) events dOr₂ or₂ now₂ =
        Except.ok (L₂, s₂, t₂) ∧
      countCreate t₂ = 0 ∧ countUpdate t₂ = 0 ∧
      s₂.skipped = events.length ∧
      ∀ e ∈ events, List.lookup e.uid L₂.synced_events =
        List.lookup e.uid L₁.synced_events := by
  cases events with
  | nil =>
    refine ⟨SyncState.save L₁ now₂, Stats.zero, [], sync_nil _ _ _ _, rfl,
      rfl, rfl, by simp⟩
  | cons e evs =>
    -- First run: every event ends with a ledger entry holding its digest.
    have hall₁ : ∀ e' ∈ e :: evs, ∃ en,
        List.lookup e'.uid L₁.synced_events = some en ∧
        en.event_hash = compute_event_hash e' := by
      rw [sync_cons] at hrun₁
      rcases hpass₁ : disappearancePass dOr₁ now₁ ((e :: evs).map Event.uid)
          (SyncState.load file) with ⟨st₀, stats₀, tr₀⟩
      obtain ⟨st₁, stats₁, tr₁, hre₁, hall⟩ :=
        runEvents_success or₁ now₁ hup hcr (e :: evs) 0 st₀ stats₀ tr₀ hnd
      rw [hpass₁, hre₁] at hrun₁
      simp only at hrun₁
      injection hrun₁ with hrun₁
      injection hrun₁ with h1 h2
      have hsy : L₁.synced_events = st₁.synced_events := by rw [← h1]; rfl
      intro e' he'
      rw [hsy]
      exact hall e' he'
    -- Second run: the pass leaves current-event entries alone, then all skip.
    have hload₂ : SyncState.load (some (Except.ok L₁)) = L₁ := rfl
    obtain ⟨stB, statsB, extB, heqB, hcrB, hupB, hskB, hccB, hcuB, hlsB⟩ :=
      disFold_stats_trace dOr₂ now₂ ((e :: evs).map Event.uid)
        (L₁.synced_events.map Prod.fst) L₁ Stats.zero []
    have hkeep : ∀ e' ∈ e :: evs, List.lookup e'.uid stB.synced_events =
        List.lookup e'.uid L₁.synced_events := by
      intro e' he'
      have hmem : e'.uid ∈ (e :: evs).map Event.uid :=
        List.mem_map_of_mem Event.uid he'
      have := disFold_mem_preserve dOr₂ now₂ ((e :: evs).map Event.uid)
        e'.uid hmem (L₁.synced_events.map Prod.fst) L₁ Stats.zero []
      rw [heqB] at this
      exact this
    have hallskip : ∀ e' ∈ e :: evs, ∃ info,
        List.lookup e'.uid stB.synced_events = some info ∧
        info.event_hash = compute_event_hash e' := by
      intro e' he'
      obtain ⟨en, hen, hh⟩ := hall₁ e' he'
      exact ⟨en, by rw [hkeep e' he', hen], hh⟩
    have hre₂ := runEvents_allSkip or₂ now₂ (e :: evs) 0 stB statsB
      ([] ++ extB) hallskip
    refine ⟨SyncState.save stB now₂,
      { statsB with skipped := statsB.skipped + (e :: evs).length },
      [] ++ extB, ?_, ?_, ?_, ?_, ?_⟩
    · rw [sync_cons, hload₂,
        show disappearancePass dOr₂ now₂ ((e :: evs).map Event.uid) L₁ =
          (L₁.synced_events.map Prod.fst).foldl
            (disStep dOr₂ now₂ ((e :: evs).map Event.uid))
            (L₁, Stats.zero, []) from rfl, heqB, hre₂]
    · rw [countCreate_append, hccB]
      rfl
    · rw [countUpdate_append, hcuB]
      rfl
    · rw [hskB]
      simp [Stats.zero]
    · intro e' he'
      exact hkeep e' he'

/-- Witness for C2: a concrete all-success first run, after which the
second run (with arbitrary different remote behaviour) makes zero
create/update calls and skips its one event. -/
theorem C2_second_run_all_skip_witness :
    ∃ L₂ s₂ t₂,
      sync_canvas_to_todoist
        (some (Except.ok ⟨[("u1", ⟨"t1",
          compute_event_hash (mkEvent "u1" "A" "" 100), isoformat 0,
          some (isoformat 100)⟩)], some (isoformat 0)⟩))
        [mkEvent "u1" "A" "" 100]
        (fun _ => ⟨false, false⟩) (fun _ => ⟨false, false, none⟩) 5 =
        Except.ok (L₂, s₂, t₂) ∧
      countCreate t₂ = 0 ∧ countUpdate t₂ = 0 ∧
      s₂.skipped = [mkEvent "u1" "A" "" 100].length ∧
      ∀ e ∈ [mkEvent "u1" "A" "" 100],
        List.lookup e.uid L₂.synced_events =
          List.lookup e.uid
            (⟨[("u1", ⟨"t1", compute_event_hash (mkEvent "u1" "A" "" 100),
              isoformat 0, some (isoformat 100)⟩)], some (isoformat 0)⟩ :
              Ledger).synced_events :=
  C2_second_run_all_skip none [mkEvent "u1" "A" "" 100]
    (fun _ => ⟨true, true⟩) (fun _ => ⟨false, false⟩)
    (fun _ => ⟨true, true, some "t1"⟩) (fun _ => ⟨false, false, none⟩) 0 5
    ⟨[("u1", ⟨"t1", compute_event_hash (mkEvent "u1" "A" "" 100),
      isoformat 0, some (isoformat 100)⟩)], some (isoformat 0)⟩
    ⟨1, 0, 0, 0⟩ [Call.createTask "u1"]
    (by decide) (fun _ => rfl) (fun _ => Option.some_ne_none "t1") rfl

/-- C5: for an already-synced event, changing exactly one of summary
text, due timestamp, or description (the other two held fixed) changes
the event's content digest; and on the next run — with the remote task
still present and the update call succeeding, as the claim's Update
branch presupposes — this triggers exactly one update call (and no
create call) for that event, after which the ledger entry holds the new
digest and the new due snapshot while its `task_id` is unchanged. -/
theorem C5_digest_sensitivity_single_update (uid tid syncedAt : String)
    (ls : Option String) (s₁ s₂ d₁ d₂ : String) (due₁ due₂ now : Int)
    (dOracle : String → DisBehavior) (oracle : Nat → EventBehavior)
    (hex : (oracle 0).existsResult = true)
    (hup : (oracle 0).updateOk = true)
    (hch : (s₁ ≠ s₂ ∧ due₁ = due₂ ∧ d₁ = d₂) ∨
           (s₁ = s₂ ∧ due₁ ≠ due₂ ∧ d₁ = d₂) ∨
           (s₁ = s₂ ∧ due₁ = due₂ ∧ d₁ ≠ d₂)) :
    compute_event_hash (mkEvent uid s₁ d₁ due₁) ≠
      compute_event_hash (mkEvent uid s₂ d₂ due₂) ∧
    sync_canvas_to_todoist
      (some (Except.ok ⟨[(uid, ⟨tid,
        compute_event_hash (mkEvent uid s₁ d₁ due₁), syncedAt,
        some (isoformat due₁)⟩)], ls⟩))
      [mkEvent uid s₂ d₂ due₂] dOracle oracle now =
      Except.ok (⟨[(uid, ⟨tid,
        compute_event_hash (mkEvent uid s₂ d₂ due₂), isoformat now,
        some (isoformat due₂)⟩)], some (isoformat now)⟩,
        ⟨0, 1, 0, 0⟩,
        [Call.taskExists uid tid, Call.updateTask uid tid]) ∧
    countUpdate [Call.taskExists uid tid, Call.updateTask uid tid] = 1 ∧
    countCreate [Call.taskExists uid tid, Call.updateTask uid tid] = 0 := by
  have hne := hash_changes uid uid s₁ s₂ d₁ d₂ due₁ due₂ hch
  refine ⟨hne, ?_, rfl, rfl⟩
  rw [sync_cons]
  have hmem : uid ∈ [mkEvent uid s₂ d₂ due₂].map Event.uid := by
    simp [mkEvent]
  have hpass : disappearancePass dOracle now
      ([mkEvent uid s₂ d₂ due₂].map Event.uid)
      ⟨[(uid, ⟨tid, compute_event_hash (mkEvent uid s₁ d₁ due₁), syncedAt,
        some (isoformat due₁)⟩)], ls⟩ =
      (⟨[(uid, ⟨tid, compute_event_hash (mkEvent uid s₁ d₁ due₁), syncedAt,
        some (isoformat due₁)⟩)], ls⟩, Stats.zero, []) := by
    rw [show disappearancePass dOracle now
        ([mkEvent uid s₂ d₂ due₂].map Event.uid)
        ⟨[(uid, ⟨tid, compute_event_hash (mkEvent uid s₁ d₁ due₁), syncedAt,
          some (isoformat due₁)⟩)], ls⟩ =
      List.foldl (disStep dOracle now
        ([mkEvent uid s₂ d₂ due₂].map Event.uid))
        (⟨[(uid, ⟨tid, compute_event_hash (mkEvent uid s₁ d₁ due₁), syncedAt,
          some (isoformat due₁)⟩)], ls⟩, Stats.zero, []) [uid] from rfl]
    rw [List.foldl_cons, disStep_of_mem hmem, List.foldl_nil]
  simp only [SyncState.load]
  rw [hpass]
  have hlk : List.lookup (mkEvent uid s₂ d₂ due₂).uid
      (Ledger.synced_events ⟨[(uid, ⟨tid,
        compute_event_hash (mkEvent uid s₁ d₁ due₁), syncedAt,
        some (isoformat due₁)⟩)], ls⟩) =
      some ⟨tid, compute_event_hash (mkEvent uid s₁ d₁ due₁), syncedAt,
        some (isoformat due₁)⟩ := by
    show List.lookup uid [(uid, _)] = _
    rw [List.lookup_cons]
    simp
  have hstep := @eventStep_update (oracle 0) now (mkEvent uid s₂ d₂ due₂)
    ⟨[(uid, ⟨tid, compute_event_hash (mkEvent uid s₁ d₁ due₁),
      syncedAt, some (isoformat due₁)⟩)], ls⟩
    Stats.zero []
    ⟨tid, compute_event_hash (mkEvent uid s₁ d₁ due₁), syncedAt,
      some (isoformat due₁)⟩ hlk hne hex hup
  rw [runEvents, hstep]
  show Except.ok (SyncState.save _ now, _, _) = _
  simp only [SyncState.save, mark_synced, setKey, if_pos rfl, mkEvent,
    Stats.zero]
  rfl

/-- Witness for C5: concretely, changing only the summary `"A" → "B"` of
the synced event changes the digest and the next run performs exactly one
update, preserving the task id `"t1"`. -/
theorem C5_digest_sensitivity_single_update_witness :
    compute_event_hash (mkEvent "u1" "A" "d" 100) ≠
      compute_event_hash (mkEvent "u1" "B" "d" 100) ∧
    sync_canvas_to_todoist
      (some (Except.ok ⟨[("u1", ⟨"t1",
        compute_event_hash (mkEvent "u1" "A" "d" 100), "s",
        some (isoformat 100)⟩)], none⟩))
      [mkEvent "u1" "B" "d" 100] (fun _ => ⟨true, true⟩)
      (fun _ => ⟨true, true, some "tX"⟩) 7 =
      Except.ok (⟨[("u1", ⟨"t1",
        compute_event_hash (mkEvent "u1" "B" "d" 100), isoformat 7,
        some (isoformat 100)⟩)], some (isoformat 7)⟩,
        ⟨0, 1, 0, 0⟩,
        [Call.taskExists "u1" "t1", Call.updateTask "u1" "t1"]) ∧
    countUpdate [Call.taskExists "u1" "t1", Call.updateTask "u1" "t1"] = 1 ∧
    countCreate [Call.taskExists "u1" "t1", Call.updateTask "u1" "t1"] = 0 :=
  C5_digest_sensitivity_single_update "u1" "t1" "s" none "A" "B" "d" "d"
    100 100 7 (fun _ => ⟨true, true⟩) (fun _ => ⟨true, true, some "tX"⟩)
    rfl rfl (Or.inl ⟨by decide, rfl, rfl⟩)

end CanvasSync
